import Mathlib

/- Verification of the pure citation-extraction and renumbering core of
   extract_citations.py (the MomClaude repository).

   Modelling conventions (shallow embedding):
   * Python `str` is modelled as `List Char` (a Python string is a sequence
     of characters).
   * Python `dict` is modelled as an association list `List (k × v)` whose
     keys are distinct; `dict[k]`-style access is `alook` (first binding
     wins, which coincides with the unique binding when keys are distinct).
     A dict access that can raise `KeyError` is modelled with `Option`.
   * Python `sorted` is `List.insertionSort (· ≤ ·)`, and `sorted(set(xs))`
     is `List.insertionSort (· ≤ ·) xs.dedup` (which duplicate of an element
     survives removal cannot affect the sorted result).
   * `difflib.SequenceMatcher(None, a, b).ratio()` is an external library
     routine; it is abstracted as an arbitrary function parameter
     `ratio : List Char → List Char → ℚ`, so the theorems about
     `detect_duplicate_references` hold for every similarity oracle.
   * The regular expressions of the source (`^\d+$`, `^\d+-\d+$`,
     `^Citations?\s+`, `Table\s+([IVXLCDMivxlcdm]+)`, `^\d+\.\s+`) are
     translated to explicit character scans.  The classes `\d` and `\s` are
     modelled as the ASCII digits and the ASCII whitespace characters, and
     `str.isalpha` as the ASCII letters together with the Latin-1 letters
     `À-ÿ` admitted by the author-name pattern of the source. -/

namespace Citations

/-! Section: Definitions

### Association lists (Python dicts) and list positions -/

/-- Dict lookup: the first binding of key `a` in an association list.
Models Python dict subscripting; a Python dict never holds two bindings of
the same key, so "first binding" is "the binding". -/
def alook {α β : Type} [DecidableEq α] : List (α × β) → α → Option β
  | [], _ => none
  | (k, v) :: t, a => if k = a then some v else alook t a

/-- Zero-based position of a number in a list (the rank a kept reference
number receives from the `old_to_new` dict built by `enumerate(kept, 1)`,
minus one). -/
def idxOf : List Nat → Nat → Nat
  | [], _ => 0
  | x :: t, a => if x = a then 0 else idxOf t a + 1

/-! Section: Characters and decimal numerals -/

/-- ASCII whitespace: the whitespace stripped by Python `str.strip` and
matched by the regex class `\s`. -/
def isPySpace (c : Char) : Bool := c.toNat = 32 || (9 ≤ c.toNat && c.toNat ≤ 13)

/-- ASCII decimal digit: the regex class `\d`. -/
def isPyDigit (c : Char) : Bool := 48 ≤ c.toNat && c.toNat ≤ 57

/-- Letters as tested by Python `str.isalpha`, restricted to the alphabets
the source handles: the ASCII letters plus the Latin-1 letters `À-ÿ` (less
the two operators `×`, `÷`) admitted by the author-name pattern of the source. -/
def isPyAlpha (c : Char) : Bool :=
  (65 ≤ c.toNat && c.toNat ≤ 90) || (97 ≤ c.toNat && c.toNat ≤ 122) ||
    (192 ≤ c.toNat && c.toNat ≤ 255 && c.toNat ≠ 215 && c.toNat ≠ 247)

/-- The characters of the Roman-numeral class `[IVXLCDMivxlcdm]`. -/
def isRomanChar (c : Char) : Bool :=
  (['I', 'V', 'X', 'L', 'C', 'D', 'M', 'i', 'v', 'x', 'l', 'c', 'd', 'm']).contains c

/-- Decimal value of a digit character (`int` on a one-digit string). -/
def charToDigit (c : Char) : Nat := c.toNat - 48

/-- Digit-by-digit construction of the decimal numeral of `n`,
most-significant digit first.  The fuel argument only bounds the recursion
depth; any fuel at least `n` produces the full numeral. -/
def natToCharsAux : Nat → Nat → List Char
  | 0, _ => []
  | fuel + 1, n =>
    if n = 0 then [] else natToCharsAux fuel (n / 10) ++ [Nat.digitChar (n % 10)]

/-- Python `str(n)` for a natural number: most-significant digit first. -/
def natToChars (n : Nat) : List Char :=
  if n = 0 then [Nat.digitChar 0] else natToCharsAux n n

/-- Python `int(s)` for a non-empty all-digit string. -/
def charsToNat (cs : List Char) : Nat :=
  Nat.ofDigits 10 ((cs.map charToDigit).reverse)

/-! Section: Small string (list-of-char) operations -/

/-- Does the string start with a whitespace character? -/
def headIsSpace : List Char → Bool
  | [] => false
  | c :: _ => isPySpace c

/-- Python `str.strip()`: remove leading and trailing whitespace. -/
def pyStrip (cs : List Char) : List Char :=
  ((cs.dropWhile isPySpace).reverse.dropWhile isPySpace).reverse

/-- Python `str.split(sep)` for a one-character separator; always returns a
non-empty list of (possibly empty) fields. -/
def splitOnChar (sep : Char) : List Char → List (List Char)
  | [] => [[]]
  | c :: cs =>
    if c = sep then [] :: splitOnChar sep cs
    else
      match splitOnChar sep cs with
      | [] => [[c]]
      | p :: ps => (c :: p) :: ps

/-- Strip a literal prefix: `some rest` when the string is `pat ++ rest`. -/
def dropPfx : List Char → List Char → Option (List Char)
  | [], s => some s
  | _ :: _, [] => none
  | p :: ps, c :: cs => if c = p then dropPfx ps cs else none

/-- Python `str.startswith(pat)`. -/
def startsWithChars (pat cs : List Char) : Bool := (dropPfx pat cs).isSome

/-- Python comma-space join of the parts (str.join with separator comma-space). -/
def joinParts : List (List Char) → List Char
  | [] => []
  | [p] => p
  | p :: ps => p ++ ',' :: ' ' :: joinParts ps

/-- The literal word `Citation`. -/
def citationWord : List Char := ['C', 'i', 't', 'a', 't', 'i', 'o', 'n']

/-- The literal word `Table`. -/
def tableWord : List Char := ['T', 'a', 'b', 'l', 'e']

/-- The singular citation prefix `Citation ` (with trailing space). -/
def citationSingularPfx : List Char := citationWord ++ [' ']

/-- The plural citation prefix `Citations ` (with trailing space). -/
def citationPluralPfx : List Char := citationWord ++ ['s', ' ']

/-! Section: Numeric citation tokens -/

/-- Full match of the regex `^\d+$`. -/
def isAllDigits (p : List Char) : Bool := !p.isEmpty && p.all isPyDigit

/-- Full match of the regex `^(\d+)-(\d+)$`, returning the two groups.
`\d` cannot match `-`, so the first group is exactly the maximal leading
digit run and no backtracking can occur. -/
def parseRangePart (p : List Char) : Option (Nat × Nat) :=
  match p.dropWhile isPyDigit with
  | c :: d2 =>
    if c = '-' && !(p.takeWhile isPyDigit).isEmpty && !d2.isEmpty && d2.all isPyDigit then
      some (charsToNat (p.takeWhile isPyDigit), charsToNat d2)
    else none
  | [] => none

/-- Boolean form of the range pattern `^\d+-\d+$`. -/
def isRangePat (p : List Char) : Bool := (parseRangePart p).isSome

/-- Python `list(range(a, b + 1))`: the inclusive run `a..b`, empty when
`b < a` (truncated subtraction yields a zero length). -/
def runList (a b : Nat) : List Nat := List.range' a (b + 1 - a)

/-- One comma-field of `extract_numbers_from_citation`: a range token
expands to the full inclusive range, a single number to itself, anything
else to nothing. -/
def extractPart (p : List Char) : List Nat :=
  match parseRangePart p with
  | some (a, b) => runList a b
  | none => if isAllDigits p then [charsToNat p] else []

/-- The substitution `re.sub` deleting the leading regex match of `^Citations?\s+`: remove the citation prefix when
present (the optional `s` is tried greedily first, then backtracked; the
trailing `\s+` needs at least one whitespace character and, being greedy
with nothing after it, consumes all of them). -/
def stripCitationPfx (cs : List Char) : List Char :=
  match dropPfx citationWord cs with
  | none => cs
  | some ('s' :: r2) =>
    if headIsSpace r2 then r2.dropWhile isPySpace
    else cs
  | some rest =>
    if headIsSpace rest then rest.dropWhile isPySpace
    else cs

/-- `extract_numbers_from_citation(cite_str)` (source lines 577-615). -/
def extract_numbers_from_citation (cs : List Char) : List Nat :=
  if startsWithChars tableWord cs then []
  else ((splitOnChar ',' (stripCitationPfx cs)).map pyStrip).flatMap extractPart

/-! Section: format_numbers_to_citation (source lines 229-282) -/

/-- Python `sorted(set(nums))`. -/
def sortedDedup (nums : List Nat) : List Nat := List.insertionSort (· ≤ ·) nums.dedup

/-- The grouping loop of `format_numbers_to_citation`: walk the sorted
distinct numbers keeping the current run `(start, fin)`, extending it when
the next number is `fin + 1` and emitting it otherwise. -/
def groupRunsAux (start fin : Nat) : List Nat → List (Nat × Nat)
  | [] => [(start, fin)]
  | n :: rest =>
    if n = fin + 1 then groupRunsAux start n rest
    else (start, fin) :: groupRunsAux n n rest

/-- Rendering of one `(start, end)` group: a bare number for a singleton,
two comma parts for a pair (never a dash), `start-end` otherwise. -/
def groupParts (g : Nat × Nat) : List (List Char) :=
  if g.2 = g.1 then [natToChars g.1]
  else if g.2 = g.1 + 1 then [natToChars g.1, natToChars g.2]
  else [natToChars g.1 ++ '-' :: natToChars g.2]

/-- `format_numbers_to_citation(nums)` (source lines 229-282). -/
def format_numbers_to_citation (nums : List Nat) : List Char :=
  if nums.isEmpty then []
  else
    match sortedDedup nums with
    | [] => []
    | [n] => citationSingularPfx ++ natToChars n
    | h :: t => citationPluralPfx ++ joinParts ((groupRunsAux h h t).flatMap groupParts)

/-! Section: Specification-side rendering (for claim C4)

These definitions follow the words of the specification — dedupe and sort, group
into maximal contiguous runs, render runs by length, prefix `Citation` iff
the result is exactly one bare number — and are compared with
`format_numbers_to_citation` above. -/

/-- Maximal contiguous runs of an ascending list, built from the right. -/
def specRuns : List Nat → List (List Nat)
  | [] => []
  | n :: rest =>
    match specRuns rest with
    | (m :: g) :: gs =>
      if m = n + 1 then (n :: m :: g) :: gs else [n] :: (m :: g) :: gs
    | gs => [n] :: gs

/-- Rendering of one run by its length: length 1 as the bare number, length
2 as two comma-separated numbers, length 3 or more as `start-end`. -/
def specRender : List Nat → List (List Char)
  | [] => []
  | [a] => [natToChars a]
  | [a, b] => [natToChars a, natToChars b]
  | a :: rest => [natToChars a ++ '-' :: natToChars (rest.getLastD a)]

/-- Is the rendered result exactly one bare number (one run of length 1)? -/
def isSingleBare : List (List Nat) → Bool
  | [[_]] => true
  | _ => false

/-- The description the specification gives of `format_numbers_to_citation`. -/
def formatSpec (nums : List Nat) : List Char :=
  match sortedDedup nums with
  | [] => []
  | h :: t =>
    (if isSingleBare (specRuns (h :: t)) then citationSingularPfx else citationPluralPfx) ++
      joinParts ((specRuns (h :: t)).flatMap specRender)

/-! Section: apply_citation_mappings (source lines 285-307) -/

/-- `apply_citation_mappings(nums, dup_map, dense_map)`: replace duplicates
by their originals, densify, then `sorted(set(...))`. -/
def apply_citation_mappings (nums : List Nat) (dup_map dense_map : List (Nat × Nat)) :
    List Nat :=
  List.insertionSort (· ≤ ·)
    (((nums.map (fun n => (alook dup_map n).getD n)).map
      (fun n => (alook dense_map n).getD n)).dedup)

/-! Section: build_densification_map (source lines 198-226) -/

/-- The original a citation number is replaced by: its entry in the
duplicates dict if it is a duplicate, otherwise itself
(`duplicates[old]` vs the `else` branch of the source loop). -/
def origOf (dups : List (Nat × Nat)) (old : Nat) : Nat :=
  match alook dups old with
  | some o => o
  | none => old

/-- `kept = sorted([n for n in range(1, max_ref + 1) if n not in duplicates])`.
`range(1, max_ref + 1)` is `List.range' 1 maxRef`, which is already in
ascending order, so the `sorted` call is the identity. -/
def keptList (dups : List (Nat × Nat)) (maxRef : Nat) : List Nat :=
  (List.range' 1 maxRef).filter (fun n => (alook dups n).isNone)

/-- The loop `for old in range(1, max_ref + 1): result[old] = ...`.
`old_to_new = {old: new for new, old in enumerate(kept, 1)}` maps a kept
number to one plus its index in `kept`, so `old_to_new[x]` is
`idxOf kept x + 1` when `x ∈ kept` and a `KeyError` (`none`) otherwise. -/
def densifyEntries (kept : List Nat) (dups : List (Nat × Nat)) :
    List Nat → Option (List (Nat × Nat))
  | [] => some []
  | old :: rest =>
    let orig := origOf dups old
    if orig ∈ kept then
      match densifyEntries kept dups rest with
      | some r => some ((old, idxOf kept orig + 1) :: r)
      | none => none
    else none

/-- `build_densification_map(duplicates, max_ref)` from the source. -/
def build_densification_map (dups : List (Nat × Nat)) (maxRef : Nat) :
    Option (List (Nat × Nat)) :=
  densifyEntries (keptList dups maxRef) dups (List.range' 1 maxRef)

/-! Section: detect_duplicate_references (source lines 155-195) -/

/-- The inner loop `for n2 in nums[i+1:]` of `detect_duplicate_references`:
skip `n2` if it is already recorded as a duplicate, otherwise record
`duplicates[n2] = n1` when the similarity test passes.  `sim n1 n2` stands
for `SequenceMatcher(None, references[n1], references[n2]).ratio() >=
threshold`; dict insertion of a fresh key appends the binding. -/
def detectInner (sim : Nat → Nat → Bool) (n1 : Nat) :
    List Nat → List (Nat × Nat) → List (Nat × Nat)
  | [], d => d
  | n2 :: rest, d =>
    if (alook d n2).isSome then detectInner sim n1 rest d
    else if sim n1 n2 then detectInner sim n1 rest (d ++ [(n2, n1)])
    else detectInner sim n1 rest d

/-- The outer loop `for i, n1 in enumerate(nums)`: skip `n1` if already a
duplicate, otherwise run the inner loop over `nums[i+1:]`, which is exactly
the tail of the remaining list. -/
def detectOuter (sim : Nat → Nat → Bool) : List Nat → List (Nat × Nat) → List (Nat × Nat)
  | [], d => d
  | n1 :: rest, d =>
    if (alook d n1).isSome then detectOuter sim rest d
    else detectOuter sim rest (detectInner sim n1 rest d)

/-- `detect_duplicate_references(references, threshold)`.  The call
`SequenceMatcher(None, a, b).ratio()` is an external difflib routine and is
abstracted as the function parameter `ratio`; `nums = sorted(references.keys())`. -/
def detect_duplicate_references (references : List (Nat × List Char))
    (ratio : List Char → List Char → ℚ) (threshold : ℚ) : List (Nat × Nat) :=
  detectOuter
    (fun n1 n2 => decide (threshold ≤
      ratio ((alook references n1).getD []) ((alook references n2).getD [])))
    (List.insertionSort (· ≤ ·) (references.map Prod.fst)) []

/-! Section: parse_citation (source lines 756-785) -/

/-- `parse_citation(text)`: strip, split on commas, strip each field and
drop empty ones, keep only fields matching `^\d+$` or `^\d+-\d+$`, rejoin
with comma-space, prefix `Citation` when exactly one field survived and the
joined text holds no dash, else `Citations`. -/
def parse_citation (text : List Char) : List (List Char) :=
  let parts := ((splitOnChar ',' (pyStrip text)).map pyStrip).filter (fun p => !p.isEmpty)
  let valid := parts.filter (fun p => isAllDigits p || isRangePat p)
  if valid.isEmpty then []
  else
    [(if decide (1 < valid.length) || (joinParts valid).contains '-' then citationPluralPfx
      else citationSingularPfx) ++ joinParts valid]

/-- The comma-fields of the trimmed input, each itself trimmed (the fields
`parse_citation` actually filters). -/
def strippedParts (text : List Char) : List (List Char) :=
  (splitOnChar ',' (pyStrip text)).map pyStrip

/-- The trimmed comma-fields that match `^\d+$` or `^\d+-\d+$`. -/
def matchingParts (text : List Char) : List (List Char) :=
  (strippedParts text).filter (fun p => isAllDigits p || isRangePat p)

/-! Section: is_left_side_superscript (source lines 855-911) -/

/-- The leading maximal run of letters of a string. -/
def firstWord (cs : List Char) : List Char := cs.takeWhile isPyAlpha

/-- `is_left_side_superscript(next_text, author_names)`.  The author-name
set is a list of names; the Python test `if author_names and ...` treats `None`
and the empty set alike, both modelled by the empty list. -/
def is_left_side_superscript (next_text : List Char) (author_names : List (List Char)) :
    Bool :=
  match next_text with
  | [] => false
  | c :: _ =>
    if !isPyAlpha c then false
    else if !author_names.isEmpty && author_names.contains (firstWord next_text) then false
    else decide ((firstWord next_text).length ≤ 2)

/-! Section: build_canonical_order (source lines 618-658) -/

/-- Full match at the start, per `re.match` with the pattern `Table\s+([IVXLCDMivxlcdm]+)`:
the word `Table`, at least one whitespace character, then the maximal run of
Roman-numeral characters as the group.  Whitespace and Roman characters are
disjoint, so maximal munch is exact. -/
def matchTableRoman (cs : List Char) : Option (List Char) :=
  match dropPfx tableWord cs with
  | none => none
  | some rest =>
    if headIsSpace rest then
      match (rest.dropWhile isPySpace).takeWhile isRomanChar with
      | [] => none
      | roman => some roman
    else none

/-- Append each number not yet present, in order (`if num not in seen`;
the `seen` set always holds exactly the members of `order`). -/
def addUnseen (order : List Nat) (ns : List Nat) : List Nat :=
  ns.foldl (fun acc n => if n ∈ acc then acc else acc ++ [n]) order

/-- The numbers one citation string contributes in `build_canonical_order`:
a Table reference is expanded through the table map (nothing when the Roman
numeral fails to parse or is absent), a numeric citation directly. -/
def expandCite (tables : List (List Char × List (List Char))) (cite : List Char) :
    List Nat :=
  if startsWithChars tableWord cite then
    match matchTableRoman cite with
    | some roman =>
      match alook tables (roman.map Char.toUpper) with
      | some tcs => tcs.flatMap extract_numbers_from_citation
      | none => []
    | none => []
  else extract_numbers_from_citation cite

/-- `build_canonical_order(table_citations, paragraph_results)`: walk the
paragraphs, walk the citations of each paragraph, and append each expanded
number on first appearance. -/
def build_canonical_order (tables : List (List Char × List (List Char)))
    (paras : List (List Char × List Char × List (List Char))) : List Nat :=
  paras.foldl
    (fun order p => p.2.2.foldl (fun o cite => addUnseen o (expandCite tables cite)) order)
    []

/-- Specification-side description: the full stream of citation numbers
with table contents inlined at their reference points, before first-
appearance deduplication. -/
def canonicalStream (tables : List (List Char × List (List Char)))
    (paras : List (List Char × List Char × List (List Char))) : List Nat :=
  paras.flatMap (fun p => p.2.2.flatMap (expandCite tables))

/-! Section: extract_citation_locations (source lines 310-408)

A paragraph is modelled as its list of runs `(text, is_superscript)` — the
run tokenisation of the XML container is the out-of-scope I/O layer.  The
`while r_idx < len(runs)` loop is modelled with a fuel argument equal to
the number of runs; every iteration consumes at least one run, so the fuel
never runs out. -/

/-- One in-text citation occurrence, as recorded by
`extract_citation_locations` (the `xpath` string is derived from
`paragraph_index` and `run_index` and is omitted). -/
structure CitationLoc where
  paragraph_index : Nat
  run_index : Nat
  end_run_index : Nat
  original_text : List Char
  context : List Char
deriving DecidableEq

/-- Python `s[-n:]`: the last `n` characters (all of them when shorter). -/
def lastN (n : Nat) (l : List Char) : List Char := l.drop (l.length - n)

/-- The concatenated text of all runs of a paragraph (superscript or not),
as collected by joining `t.text` over `p.findall(.//w:t)`. -/
def paragraphFullText (runs : List (List Char × Bool)) : List Char :=
  (runs.map Prod.fst).flatten

/-- `REF_ENTRY_PATTERN.match(full_text)`: the regex `^\d+\.\s+` — at least
one digit, a period, at least one whitespace character. -/
def isRefEntryRaw (cs : List Char) : Bool :=
  match cs.dropWhile isPyDigit with
  | '.' :: rest => !(cs.takeWhile isPyDigit).isEmpty && headIsSpace rest
  | _ => false

/-- The text of the first run of a run list (empty when there is none):
the `next_text` read from `runs[j]` after a merged superscript group. -/
def headText : List (List Char × Bool) → List Char
  | [] => []
  | (nt, _) :: _ => nt

/-- The run-scanning loop of `extract_citation_locations` for one
paragraph.  `prev` holds the already processed runs (used for the context
snippet), `i` is the current run index, `seen` is `has_seen_text`.  On a
superscript run the following superscript runs are merged; `j = i + 1 + k`
where `k` counts them; the merged group is skipped when classified as
left-side notation or when no regular text was seen, recorded when its
stripped text matches `^\d+$` or `^\d+-\d+$`, and the scan resumes at `j`
in every case. -/
def scanRunsF (an : List (List Char)) (pIdx : Nat) :
    Nat → List (List Char × Bool) → Nat → Bool → List (List Char × Bool) →
      List CitationLoc
  | 0, _, _, _, _ => []
  | _ + 1, _, _, _, [] => []
  | fuel + 1, prev, i, seen, (t, false) :: rest =>
    scanRunsF an pIdx fuel (prev ++ [(t, false)]) (i + 1)
      (seen || !(pyStrip t).isEmpty) rest
  | fuel + 1, prev, i, seen, (t, true) :: rest =>
    let supRuns := rest.takeWhile (fun r => r.2)
    let k := supRuns.length
    let after := rest.drop k
    let consumed := ((t, true) :: supRuns : List (List Char × Bool))
    if is_left_side_superscript (headText after) an then
      scanRunsF an pIdx fuel (prev ++ consumed) (i + 1 + k) seen after
    else if !seen then
      scanRunsF an pIdx fuel (prev ++ consumed) (i + 1 + k) seen after
    else if isAllDigits (pyStrip (t ++ (supRuns.map Prod.fst).flatten)) ||
        isRangePat (pyStrip (t ++ (supRuns.map Prod.fst).flatten)) then
      { paragraph_index := pIdx, run_index := i, end_run_index := i + k,
        original_text := pyStrip (t ++ (supRuns.map Prod.fst).flatten),
        context := pyStrip (lastN 30 ((prev.map Prod.fst).flatten)) } ::
        scanRunsF an pIdx fuel (prev ++ consumed) (i + 1 + k) seen after
    else
      scanRunsF an pIdx fuel (prev ++ consumed) (i + 1 + k) seen after

/-- `extract_citation_locations(xml_str, author_names)`: for each paragraph
(by global index), skip bibliography entries, then scan its runs. -/
def extract_citation_locations (paras : List (List (List Char × Bool)))
    (an : List (List Char)) : List CitationLoc :=
  paras.enum.flatMap (fun q =>
    if isRefEntryRaw (paragraphFullText q.2) then []
    else scanRunsF an q.1 q.2.length [] 0 false q.2)

/-! Section: Theorems

### Association lists and list positions -/

theorem alook_eq_none {α β : Type} [DecidableEq α] (l : List (α × β)) (a : α) :
    alook l a = none ↔ a ∉ l.map Prod.fst := by
  induction l with
  | nil => simp [alook]
  | cons p t ih =>
    obtain ⟨k, v⟩ := p
    by_cases h : k = a
    · subst h
      simp [alook]
    · simp [alook, h, ih, Ne.symm h]

theorem alook_mem {α β : Type} [DecidableEq α] {l : List (α × β)} {a : α} {b : β}
    (h : alook l a = some b) : (a, b) ∈ l := by
  induction l with
  | nil => simp [alook] at h
  | cons p t ih =>
    obtain ⟨k, v⟩ := p
    by_cases hk : k = a
    · subst hk
      simp [alook] at h
      simp [h]
    · simp [alook, hk] at h
      simp [ih h]

theorem alook_of_mem {α β : Type} [DecidableEq α] {l : List (α × β)} {a : α} {b : β}
    (hnd : (l.map Prod.fst).Nodup) (h : (a, b) ∈ l) : alook l a = some b := by
  induction l with
  | nil => simp at h
  | cons p t ih =>
    obtain ⟨k, v⟩ := p
    simp only [List.map_cons, List.nodup_cons] at hnd
    rcases List.mem_cons.mp h with h1 | h1
    · obtain ⟨rfl, rfl⟩ := Prod.mk.injEq .. ▸ h1
      simp [alook]
    · have hka : k ≠ a := by
        rintro rfl
        exact hnd.1 (List.mem_map.mpr ⟨(k, b), h1, rfl⟩)
      simp [alook, hka, ih hnd.2 h1]

theorem alook_graph {α β : Type} [DecidableEq α] (f : α → β) {l : List α} {a : α}
    (h : a ∈ l) : alook (l.map (fun o => (o, f o))) a = some (f a) := by
  induction l with
  | nil => simp at h
  | cons x t ih =>
    by_cases hx : x = a
    · subst hx
      simp [alook]
    · rcases List.mem_cons.mp h with h1 | h1
      · exact absurd h1.symm hx
      · simp [alook, hx, ih h1]

theorem idxOf_lt_length {l : List Nat} {a : Nat} (h : a ∈ l) : idxOf l a < l.length := by
  induction l with
  | nil => simp at h
  | cons x t ih =>
    by_cases hx : x = a
    · simp [idxOf, hx]
    · rcases List.mem_cons.mp h with h1 | h1
      · exact absurd h1.symm hx
      · simpa [idxOf, hx] using ih h1

theorem idxOf_strictMono {l : List Nat} (hl : l.Pairwise (· < ·)) {a b : Nat}
    (ha : a ∈ l) (hb : b ∈ l) (hab : a < b) : idxOf l a < idxOf l b := by
  induction l with
  | nil => simp at ha
  | cons x t ih =>
    rcases List.pairwise_cons.mp hl with ⟨hx, ht⟩
    by_cases hxa : x = a
    · subst hxa
      have hxb : x ≠ b := by omega
      have e1 : idxOf (x :: t) x = 0 := by simp [idxOf]
      have e2 : idxOf (x :: t) b = idxOf t b + 1 := by simp [idxOf, hxb]
      omega
    · have hat : a ∈ t := (List.mem_cons.mp ha).resolve_left (fun h => hxa h.symm)
      have hxlt : x < a := hx a hat
      have hxb : x ≠ b := by omega
      have hbt : b ∈ t := (List.mem_cons.mp hb).resolve_left (fun h => hxb h.symm)
      have hrec := ih ht hat hbt
      simp only [idxOf, if_neg hxa, if_neg hxb]
      omega

theorem idxOf_get {l : List Nat} (hnd : l.Nodup) (i : Nat) (h : i < l.length) :
    idxOf l l[i] = i := by
  induction l generalizing i with
  | nil => simp at h
  | cons x t ih =>
    cases i with
    | zero => simp [idxOf]
    | succ j =>
      have hj : j < t.length := by simpa using h
      have hmem : t[j] ∈ t := List.getElem_mem hj
      have hx : x ≠ t[j] := by
        intro hcontra
        exact (List.nodup_cons.mp hnd).1 (hcontra ▸ hmem)
      have hrec := ih (List.nodup_cons.mp hnd).2 j hj
      simp only [List.getElem_cons_succ, idxOf, if_neg hx]
      omega

/-! Section: Character classes and decimal numerals -/

theorem isPyDigit_digitChar {d : Nat} (h : d < 10) : isPyDigit (Nat.digitChar d) = true := by
  interval_cases d <;> decide

theorem charToDigit_digitChar {d : Nat} (h : d < 10) : charToDigit (Nat.digitChar d) = d := by
  interval_cases d <;> decide

theorem isPyDigit_bounds {c : Char} (h : isPyDigit c = true) :
    48 ≤ c.toNat ∧ c.toNat ≤ 57 := by
  simpa [isPyDigit] using h

theorem isPyDigit_ne_comma {c : Char} (h : isPyDigit c = true) : c ≠ ',' := by
  rintro rfl
  exact absurd h (by decide)

theorem isPyDigit_ne_dash {c : Char} (h : isPyDigit c = true) : c ≠ '-' := by
  rintro rfl
  exact absurd h (by decide)

theorem isPyDigit_ne_T {c : Char} (h : isPyDigit c = true) : c ≠ 'T' := by
  rintro rfl
  exact absurd h (by decide)

theorem isPyDigit_not_space {c : Char} (h : isPyDigit c = true) : isPySpace c = false := by
  have hb := isPyDigit_bounds h
  rw [← Bool.not_eq_true]
  simp only [isPySpace, Bool.or_eq_true, decide_eq_true_eq, Bool.and_eq_true]
  omega

theorem not_space_of_digit_or_dash {c : Char} (h : isPyDigit c = true ∨ c = '-') :
    isPySpace c = false := by
  rcases h with h | rfl
  · exact isPyDigit_not_space h
  · decide

theorem digit_or_dash_ne_comma {c : Char} (h : isPyDigit c = true ∨ c = '-') : c ≠ ',' := by
  rcases h with h | rfl
  · exact isPyDigit_ne_comma h
  · decide

theorem natToCharsAux_ne_nil {fuel n : Nat} (hf : 0 < fuel) (hn : 0 < n) :
    natToCharsAux fuel n ≠ [] := by
  cases fuel with
  | zero => omega
  | succ f =>
    have h : ¬(n = 0) := by omega
    simp [natToCharsAux, h]

theorem natToChars_ne_nil (n : Nat) : natToChars n ≠ [] := by
  unfold natToChars
  split
  · simp
  · next h => exact natToCharsAux_ne_nil (by omega) (by omega)

theorem natToCharsAux_all_digit :
    ∀ (fuel n : Nat), ∀ c ∈ natToCharsAux fuel n, isPyDigit c = true := by
  intro fuel
  induction fuel with
  | zero => intro n c hc; simp [natToCharsAux] at hc
  | succ f ih =>
    intro n c hc
    by_cases h : n = 0
    · simp [natToCharsAux, h] at hc
    · simp only [natToCharsAux, if_neg h, List.mem_append, List.mem_singleton] at hc
      rcases hc with hc | rfl
      · exact ih _ c hc
      · exact isPyDigit_digitChar (Nat.mod_lt n (by norm_num))

theorem natToChars_all_digit (n : Nat) : ∀ c ∈ natToChars n, isPyDigit c = true := by
  intro c hc
  unfold natToChars at hc
  split at hc
  · simp at hc
    subst hc
    decide
  · exact natToCharsAux_all_digit n n c hc

theorem charsToNat_append_digit (l : List Char) (c : Char) :
    charsToNat (l ++ [c]) = charToDigit c + 10 * charsToNat l := by
  unfold charsToNat
  rw [List.map_append, List.reverse_append]
  simp [Nat.ofDigits_cons]

theorem natToCharsAux_correct :
    ∀ (fuel n : Nat), n ≤ fuel → charsToNat (natToCharsAux fuel n) = n := by
  intro fuel
  induction fuel with
  | zero =>
    intro n hn
    have : n = 0 := by omega
    subst this
    rfl
  | succ f ih =>
    intro n hn
    by_cases h : n = 0
    · subst h
      simp [natToCharsAux]
      rfl
    · have hdiv : n / 10 < n := Nat.div_lt_self (by omega) (by norm_num)
      simp only [natToCharsAux, if_neg h]
      rw [charsToNat_append_digit, charToDigit_digitChar (Nat.mod_lt n (by norm_num)),
        ih (n / 10) (by omega)]
      omega

theorem charsToNat_natToChars (n : Nat) : charsToNat (natToChars n) = n := by
  unfold natToChars
  split
  · next h =>
    subst h
    decide
  · exact natToCharsAux_correct n n (le_refl n)

theorem isAllDigits_natToChars (n : Nat) : isAllDigits (natToChars n) = true := by
  have h1 : (natToChars n).isEmpty = false := by
    rw [List.isEmpty_eq_false_iff_exists_mem]
    rcases List.exists_mem_of_ne_nil _ (natToChars_ne_nil n) with ⟨c, hc⟩
    exact ⟨c, hc⟩
  simp only [isAllDigits, h1, Bool.not_false, Bool.true_and, List.all_eq_true]
  exact natToChars_all_digit n

/-! Section: takeWhile, dropWhile, strip, split, join -/

theorem takeWhile_append_all {p : Char → Bool} {l : List Char} (r : List Char)
    (h : ∀ c ∈ l, p c = true) : (l ++ r).takeWhile p = l ++ r.takeWhile p := by
  induction l with
  | nil => simp
  | cons c cs ih =>
    have hc : p c = true := h c (List.mem_cons_self _ _)
    simp only [List.cons_append, List.takeWhile_cons, hc, if_true]
    rw [ih (fun x hx => h x (List.mem_cons_of_mem _ hx))]

theorem dropWhile_append_all {p : Char → Bool} {l : List Char} (r : List Char)
    (h : ∀ c ∈ l, p c = true) : (l ++ r).dropWhile p = r.dropWhile p := by
  induction l with
  | nil => simp
  | cons c cs ih =>
    have hc : p c = true := h c (List.mem_cons_self _ _)
    simp only [List.cons_append, List.dropWhile_cons, hc, if_true]
    exact ih (fun x hx => h x (List.mem_cons_of_mem _ hx))

theorem takeWhile_all {p : Char → Bool} {l : List Char} (h : ∀ c ∈ l, p c = true) :
    l.takeWhile p = l := by
  induction l with
  | nil => simp
  | cons c cs ih =>
    simp only [List.takeWhile_cons, h c (List.mem_cons_self _ _), if_true]
    rw [ih (fun x hx => h x (List.mem_cons_of_mem _ hx))]

theorem dropWhile_all {p : Char → Bool} {l : List Char} (h : ∀ c ∈ l, p c = true) :
    l.dropWhile p = [] := by
  induction l with
  | nil => simp
  | cons c cs ih =>
    simp only [List.dropWhile_cons, h c (List.mem_cons_self _ _), if_true]
    exact ih (fun x hx => h x (List.mem_cons_of_mem _ hx))

theorem takeWhile_cons_neg {p : Char → Bool} {c : Char} (l : List Char) (h : p c = false) :
    (c :: l).takeWhile p = [] := by
  simp [List.takeWhile_cons, h]

theorem dropWhile_cons_neg {p : Char → Bool} {c : Char} (l : List Char) (h : p c = false) :
    (c :: l).dropWhile p = c :: l := by
  simp [List.dropWhile_cons, h]

theorem dropWhile_eq_self_of_all {p : Char → Bool} {l : List Char}
    (h : ∀ c ∈ l, p c = false) : l.dropWhile p = l := by
  cases l with
  | nil => simp
  | cons c cs => exact dropWhile_cons_neg cs (h c (List.mem_cons_self _ _))

theorem pyStrip_eq_self {l : List Char} (h : ∀ c ∈ l, isPySpace c = false) :
    pyStrip l = l := by
  unfold pyStrip
  rw [dropWhile_eq_self_of_all h,
    dropWhile_eq_self_of_all (fun c hc => h c (List.mem_reverse.mp hc)),
    List.reverse_reverse]

theorem pyStrip_cons_space {c : Char} (l : List Char) (h : isPySpace c = true) :
    pyStrip (c :: l) = pyStrip l := by
  unfold pyStrip
  simp [List.dropWhile_cons, h]

theorem splitOnChar_ne_nil (sep : Char) (l : List Char) : splitOnChar sep l ≠ [] := by
  cases l with
  | nil => simp [splitOnChar]
  | cons c cs =>
    by_cases h : c = sep
    · simp [splitOnChar, h]
    · simp only [splitOnChar, if_neg h]
      rcases hs : splitOnChar sep cs with _ | ⟨p, ps⟩ <;> simp

theorem splitOnChar_no_sep {sep : Char} {l : List Char} (h : sep ∉ l) :
    splitOnChar sep l = [l] := by
  induction l with
  | nil => rfl
  | cons c cs ih =>
    have hc : ¬(c = sep) := fun hx => h (hx ▸ List.mem_cons_self _ _)
    have hcs : sep ∉ cs := fun hx => h (List.mem_cons_of_mem _ hx)
    simp only [splitOnChar, if_neg hc, ih hcs]

theorem splitOnChar_append {sep : Char} {p : List Char} (r : List Char) (h : sep ∉ p) :
    splitOnChar sep (p ++ sep :: r) = p :: splitOnChar sep r := by
  induction p with
  | nil => simp [splitOnChar]
  | cons c cs ih =>
    have hc : ¬(c = sep) := fun hx => h (hx ▸ List.mem_cons_self _ _)
    have hcs : sep ∉ cs := fun hx => h (List.mem_cons_of_mem _ hx)
    simp only [List.cons_append, splitOnChar, if_neg hc]
    rw [show cs.append (sep :: r) = cs ++ sep :: r from rfl, ih hcs]

theorem splitOnChar_cons_ne {sep c : Char} {l q : List Char} {qs : List (List Char)}
    (h : ¬(c = sep)) (heq : splitOnChar sep l = q :: qs) :
    splitOnChar sep (c :: l) = (c :: q) :: qs := by
  simp only [splitOnChar, if_neg h, heq]

theorem joinParts_single (p : List Char) : joinParts [p] = p := rfl

theorem joinParts_cons_cons (p q : List Char) (ps : List (List Char)) :
    joinParts (p :: q :: ps) = p ++ ',' :: ' ' :: joinParts (q :: ps) := rfl

/-- Splitting the comma-space join of non-empty comma-free space-free parts on
`','` and stripping each field recovers the parts. -/
theorem split_strip_join (P : List (List Char))
    (hP : ∀ p ∈ P, p ≠ [] ∧ ∀ c ∈ p, isPyDigit c = true ∨ c = '-') (hne : P ≠ []) :
    (splitOnChar ',' (joinParts P)).map pyStrip = P := by
  induction P with
  | nil => cases hne rfl
  | cons p ps ih =>
    have hp := hP p (List.mem_cons_self _ _)
    have hstrip : pyStrip p = p :=
      pyStrip_eq_self (fun c hc => not_space_of_digit_or_dash (hp.2 c hc))
    have hcomma : ',' ∉ p := by
      intro hc
      exact digit_or_dash_ne_comma (hp.2 _ hc) rfl
    cases ps with
    | nil =>
      rw [joinParts_single, splitOnChar_no_sep hcomma]
      simp [hstrip]
    | cons q ps2 =>
      have ihr := ih (fun r hr => hP r (List.mem_cons_of_mem _ hr)) (by simp)
      rw [joinParts_cons_cons, splitOnChar_append _ hcomma]
      obtain ⟨h0, hs0, hshape⟩ : ∃ h0 hs0,
          splitOnChar ',' (joinParts (q :: ps2)) = h0 :: hs0 := by
        rcases hsp : splitOnChar ',' (joinParts (q :: ps2)) with _ | ⟨h0, hs0⟩
        · exact absurd hsp (splitOnChar_ne_nil _ _)
        · exact ⟨h0, hs0, rfl⟩
      rw [splitOnChar_cons_ne (by decide) hshape]
      rw [hshape] at ihr
      simp only [List.map_cons] at ihr ⊢
      rw [hstrip, pyStrip_cons_space _ (by decide)]
      rw [ihr]

/-! Section: Prefix handling -/

theorem dropPfx_append (pat rest : List Char) : dropPfx pat (pat ++ rest) = some rest := by
  induction pat with
  | nil => rfl
  | cons c cs ih => simp [dropPfx, ih]

theorem startsWith_of_append (pat rest : List Char) :
    startsWithChars pat (pat ++ rest) = true := by
  simp [startsWithChars, dropPfx_append]

theorem table_not_citation (X : List Char) :
    startsWithChars tableWord (citationWord ++ X) = false := rfl

theorem table_not_digit {n : Nat} (X : List Char) :
    startsWithChars tableWord (natToChars n ++ X) = false := by
  rcases hshape : natToChars n with _ | ⟨c, cs⟩
  · exact absurd hshape (natToChars_ne_nil n)
  · have hc : isPyDigit c = true :=
      natToChars_all_digit n c (hshape ▸ List.mem_cons_self _ _)
    have hT : ¬(c = 'T') := isPyDigit_ne_T hc
    simp [startsWithChars, tableWord, dropPfx, hT]

theorem stripCitationPfx_singular {D : List Char} (h : D.dropWhile isPySpace = D) :
    stripCitationPfx (citationSingularPfx ++ D) = D := by
  show List.dropWhile isPySpace D = D
  exact h

theorem stripCitationPfx_plural {D : List Char} (h : D.dropWhile isPySpace = D) :
    stripCitationPfx (citationPluralPfx ++ D) = D := by
  show List.dropWhile isPySpace D = D
  exact h

/-! Section: Range and digit tokens -/

theorem parseRangePart_digits_dash (a b : Nat) :
    parseRangePart (natToChars a ++ '-' :: natToChars b) = some (a, b) := by
  have hall := natToChars_all_digit a
  have htake : (natToChars a ++ '-' :: natToChars b).takeWhile isPyDigit = natToChars a := by
    rw [takeWhile_append_all _ hall, takeWhile_cons_neg _ (by decide), List.append_nil]
  have hdrop : (natToChars a ++ '-' :: natToChars b).dropWhile isPyDigit =
      '-' :: natToChars b := by
    rw [dropWhile_append_all _ hall, dropWhile_cons_neg _ (by decide)]
  have hae : (natToChars a).isEmpty = false := by
    rcases hshape : natToChars a with _ | ⟨c, cs⟩
    · exact absurd hshape (natToChars_ne_nil a)
    · rfl
  have hbe : (natToChars b).isEmpty = false := by
    rcases hshape : natToChars b with _ | ⟨c, cs⟩
    · exact absurd hshape (natToChars_ne_nil b)
    · rfl
  have hba : (natToChars b).all isPyDigit = true := by
    rw [List.all_eq_true]
    exact natToChars_all_digit b
  unfold parseRangePart
  rw [hdrop]
  simp [htake, hae, hbe, hba, charsToNat_natToChars]

theorem parseRangePart_all_digits {p : List Char} (h : ∀ c ∈ p, isPyDigit c = true) :
    parseRangePart p = none := by
  unfold parseRangePart
  rw [dropWhile_all h]

theorem extractPart_nat (n : Nat) : extractPart (natToChars n) = [n] := by
  unfold extractPart
  rw [parseRangePart_all_digits (natToChars_all_digit n)]
  simp [isAllDigits_natToChars n, charsToNat_natToChars]

theorem extractPart_range (a b : Nat) :
    extractPart (natToChars a ++ '-' :: natToChars b) = runList a b := by
  unfold extractPart
  rw [parseRangePart_digits_dash]

/-! Section: Inclusive runs -/

theorem runList_self (a : Nat) : runList a a = [a] := by
  simp [runList]

theorem runList_ne_nil {a b : Nat} (h : a ≤ b) : runList a b ≠ [] := by
  simp only [runList, ne_eq, List.range'_eq_nil]
  omega

theorem runList_cons {a b : Nat} (h : a ≤ b) : runList a b = a :: runList (a + 1) b := by
  unfold runList
  have h1 : b + 1 - a = (b - a) + 1 := by omega
  have h2 : b + 1 - (a + 1) = b - a := by omega
  rw [h1, h2, List.range'_succ]

theorem runList_concat {a b : Nat} (h : a ≤ b) :
    runList a b ++ [b + 1] = runList a (b + 1) := by
  unfold runList
  have h1 : b + 1 + 1 - a = (b + 1 - a) + 1 := by omega
  have h2 : a + 1 * (b + 1 - a) = b + 1 := by omega
  rw [h1, List.range'_concat, h2]

theorem runList_pair (a : Nat) : runList a (a + 1) = [a, a + 1] := by
  rw [runList_cons (by omega), runList_self]

theorem runList_getLastD {a b : Nat} (h : a ≤ b) (d : Nat) :
    (runList a b).getLastD d = b := by
  unfold runList
  rw [List.getLastD_eq_getLast?, List.getLast?_range']
  have h1 : ¬(b + 1 - a = 0) := by omega
  rw [if_neg h1]
  simp only [Option.getD_some]
  omega

theorem runList_mem {a b m : Nat} : m ∈ runList a b ↔ a ≤ m ∧ m ≤ b := by
  simp only [runList, List.mem_range'_1]
  omega

/-! Section: C1: build_densification_map -/

theorem densifyEntries_eq_some (kept : List Nat) (dups : List (Nat × Nat))
    (l : List Nat) (h : ∀ o ∈ l, origOf dups o ∈ kept) :
    densifyEntries kept dups l =
      some (l.map (fun o => (o, idxOf kept (origOf dups o) + 1))) := by
  induction l with
  | nil => simp [densifyEntries]
  | cons old rest ih =>
    have h1 : origOf dups old ∈ kept := h old (List.mem_cons_self _ _)
    have h2 : ∀ o ∈ rest, origOf dups o ∈ kept := fun o ho => h o (List.mem_cons_of_mem _ ho)
    simp [densifyEntries, h1, ih h2]

theorem keptList_pairwise (dups : List (Nat × Nat)) (maxRef : Nat) :
    (keptList dups maxRef).Pairwise (· < ·) :=
  (List.pairwise_lt_range' 1 maxRef).filter _

theorem keptList_nodup (dups : List (Nat × Nat)) (maxRef : Nat) :
    (keptList dups maxRef).Nodup :=
  (keptList_pairwise dups maxRef).imp Nat.ne_of_lt

theorem mem_keptList {dups : List (Nat × Nat)} {maxRef n : Nat} :
    n ∈ keptList dups maxRef ↔ (1 ≤ n ∧ n < 1 + maxRef) ∧ n ∉ dups.map Prod.fst := by
  simp [keptList, List.mem_filter, Option.isNone_iff_eq_none, alook_eq_none]

theorem keptList_length (dups : List (Nat × Nat)) (maxRef : Nat)
    (hnd : (dups.map Prod.fst).Nodup)
    (hk : ∀ p ∈ dups, 1 ≤ p.1 ∧ p.1 ≤ maxRef) :
    (keptList dups maxRef).length = maxRef - dups.length := by
  classical
  set K := dups.map Prod.fst with hK
  have hperm : List.Perm
      ((List.range' 1 maxRef).filter (fun n => (alook dups n).isNone) ++
        (List.range' 1 maxRef).filter (fun n => !(alook dups n).isNone))
      (List.range' 1 maxRef) := List.filter_append_perm _ _
  have hlen := hperm.length_eq
  simp only [List.length_append, List.length_range'] at hlen
  have hnotkept :
      ((List.range' 1 maxRef).filter (fun n => !(alook dups n).isNone)).length = K.length := by
    have hnd1 : ((List.range' 1 maxRef).filter (fun n => !(alook dups n).isNone)).Nodup :=
      (List.nodup_range' 1 maxRef).filter _
    have hmem : ∀ n, n ∈ (List.range' 1 maxRef).filter (fun n => !(alook dups n).isNone) ↔
        n ∈ K := by
      intro n
      simp only [List.mem_filter, List.mem_range'_1, Bool.not_eq_true']
      constructor
      · rintro ⟨-, h2⟩
        have : alook dups n ≠ none := by
          intro hc
          simp [hc] at h2
        rcases Option.ne_none_iff_exists'.mp this with ⟨v, hv⟩
        exact List.mem_map.mpr ⟨(n, v), alook_mem hv, rfl⟩
      · intro hn
        have h1 : alook dups n ≠ none := fun hc => (alook_eq_none dups n).mp hc hn
        rcases List.mem_map.mp hn with ⟨p, hp, hfst⟩
        have := hk p hp
        refine ⟨by omega, ?_⟩
        have hsome : (alook dups n).isSome = true := Option.ne_none_iff_isSome.mp h1
        simpa using hsome
    have h1 : ((List.range' 1 maxRef).filter (fun n => !(alook dups n).isNone)).toFinset =
        K.toFinset := by
      ext n
      simp only [List.mem_toFinset]
      exact hmem n
    calc ((List.range' 1 maxRef).filter (fun n => !(alook dups n).isNone)).length
        = ((List.range' 1 maxRef).filter (fun n => !(alook dups n).isNone)).toFinset.card :=
          (List.toFinset_card_of_nodup hnd1).symm
      _ = K.toFinset.card := by rw [h1]
      _ = K.length := List.toFinset_card_of_nodup hnd
  have hKlen : K.length = dups.length := by simp [hK]
  have : (keptList dups maxRef).length =
      ((List.range' 1 maxRef).filter (fun n => (alook dups n).isNone)).length := rfl
  omega

/-- C1: on a chain-resolved duplicates dict whose keys and values lie in
`1..max_ref`, `build_densification_map` succeeds, is total on `1..max_ref`,
has image exactly `1..(max_ref - |duplicates|)`, is strictly
order-preserving on kept (non-key) numbers, and sends every duplicate key to
the same new number as its original. -/
theorem build_densification_map_spec (dups : List (Nat × Nat)) (maxRef : Nat)
    (hnd : (dups.map Prod.fst).Nodup)
    (hk : ∀ p ∈ dups, 1 ≤ p.1 ∧ p.1 ≤ maxRef ∧ 1 ≤ p.2 ∧ p.2 ≤ maxRef)
    (hchain : ∀ p ∈ dups, p.2 ∉ dups.map Prod.fst) :
    ∃ m, build_densification_map dups maxRef = some m ∧
      m.map Prod.fst = List.range' 1 maxRef ∧
      (∀ j, j ∈ m.map Prod.snd ↔ 1 ≤ j ∧ j ≤ maxRef - dups.length) ∧
      (∀ a b va vb, a ∉ dups.map Prod.fst → b ∉ dups.map Prod.fst → a < b →
        (a, va) ∈ m → (b, vb) ∈ m → va < vb) ∧
      (∀ k v, (k, v) ∈ dups → alook m k = alook m v) := by
  classical
  set kept := keptList dups maxRef with hkept
  have horig : ∀ o ∈ List.range' 1 maxRef, origOf dups o ∈ kept := by
    intro o ho
    rcases h : alook dups o with _ | v
    · have : origOf dups o = o := by simp [origOf, h]
      rw [this, hkept, mem_keptList]
      simp only [List.mem_range'_1] at ho
      exact ⟨ho, (alook_eq_none dups o).mp h⟩
    · have hmem : (o, v) ∈ dups := alook_mem h
      have : origOf dups o = v := by simp [origOf, h]
      rw [this, hkept, mem_keptList]
      have h1 := hk _ hmem
      have h2 := hchain _ hmem
      exact ⟨by constructor <;> omega, h2⟩
  set f : Nat → Nat := fun o => idxOf kept (origOf dups o) + 1 with hf
  set m := (List.range' 1 maxRef).map (fun o => (o, f o)) with hm
  have hbuild : build_densification_map dups maxRef = some m := by
    rw [build_densification_map, ← hkept, densifyEntries_eq_some kept dups _ horig]
  have hklen : kept.length = maxRef - dups.length :=
    keptList_length dups maxRef hnd (fun p hp => ⟨(hk p hp).1, (hk p hp).2.1⟩)
  refine ⟨m, hbuild, ?_, ?_, ?_, ?_⟩
  · simp [hm, List.map_map, Function.comp_def]
  · intro j
    constructor
    · intro hj
      rcases List.mem_map.mp hj with ⟨p, hp, rfl⟩
      rcases List.mem_map.mp hp with ⟨o, ho, rfl⟩
      have h1 : idxOf kept (origOf dups o) < kept.length := idxOf_lt_length (horig o ho)
      simp only [hf]
      omega
    · rintro ⟨h1, h2⟩
      have hj1 : j - 1 < kept.length := by omega
      set a := kept[j - 1] with ha
      have hak : a ∈ kept := List.getElem_mem hj1
      have haprops := (hkept ▸ mem_keptList).mp (hkept ▸ hak)
      have harange : a ∈ List.range' 1 maxRef := by
        simp only [List.mem_range'_1]
        exact haprops.1
      have horiga : origOf dups a = a := by
        have : alook dups a = none := (alook_eq_none dups a).mpr haprops.2
        simp [origOf, this]
      have hidx : idxOf kept a = j - 1 := idxOf_get (keptList_nodup dups maxRef) _ hj1
      refine List.mem_map.mpr ⟨(a, f a), List.mem_map.mpr ⟨a, harange, rfl⟩, ?_⟩
      simp only [hf, horiga, hidx]
      omega
  · intro a b va vb hA hB hab hma hmb
    rcases List.mem_map.mp hma with ⟨o1, ho1, he1⟩
    rcases List.mem_map.mp hmb with ⟨o2, ho2, he2⟩
    obtain ⟨rfl, rfl⟩ : o1 = a ∧ f o1 = va := by simpa using he1
    obtain ⟨rfl, rfl⟩ : o2 = b ∧ f o2 = vb := by simpa using he2
    have horiga : origOf dups o1 = o1 := by
      have : alook dups o1 = none := (alook_eq_none dups o1).mpr hA
      simp [origOf, this]
    have horigb : origOf dups o2 = o2 := by
      have : alook dups o2 = none := (alook_eq_none dups o2).mpr hB
      simp [origOf, this]
    have hamem : o1 ∈ kept := by
      rw [hkept, mem_keptList]
      simp only [List.mem_range'_1] at ho1
      exact ⟨ho1, hA⟩
    have hbmem : o2 ∈ kept := by
      rw [hkept, mem_keptList]
      simp only [List.mem_range'_1] at ho2
      exact ⟨ho2, hB⟩
    have hstrict :=
      idxOf_strictMono (keptList_pairwise dups maxRef) (hkept ▸ hamem) (hkept ▸ hbmem) hab
    rw [← hkept] at hstrict
    have e1 : f o1 = idxOf kept o1 + 1 := by simp [hf, horiga]
    have e2 : f o2 = idxOf kept o2 + 1 := by simp [hf, horigb]
    omega
  · intro k v hkv
    have hk1 := hk _ hkv
    have hkrange : k ∈ List.range' 1 maxRef := by
      simp only [List.mem_range'_1]
      omega
    have hvrange : v ∈ List.range' 1 maxRef := by
      simp only [List.mem_range'_1]
      omega
    have h1 : alook m k = some (f k) := alook_graph f hkrange
    have h2 : alook m v = some (f v) := alook_graph f hvrange
    have horigk : origOf dups k = v := by
      have : alook dups k = some v := alook_of_mem hnd hkv
      simp [origOf, this]
    have horigv : origOf dups v = v := by
      have : alook dups v = none := (alook_eq_none dups v).mpr (hchain _ hkv)
      simp [origOf, this]
    rw [h1, h2]
    simp [hf, horigk, horigv]

/-- Witness for C1 at `duplicates = {3: 1}`, `max_ref = 3` (the docstring
example, whose map is `{1: 1, 2: 2, 3: 1}`). -/
theorem build_densification_map_spec_witness :
    ([((3 : Nat), (1 : Nat))].map Prod.fst).Nodup ∧
    build_densification_map [(3, 1)] 3 = some [(1, 1), (2, 2), (3, 1)] ∧
    ∃ m, build_densification_map [(3, 1)] 3 = some m ∧
      m.map Prod.fst = List.range' 1 3 ∧
      (∀ j, j ∈ m.map Prod.snd ↔ 1 ≤ j ∧ j ≤ 3 - [((3 : Nat), (1 : Nat))].length) ∧
      (∀ a b va vb, a ∉ [((3 : Nat), (1 : Nat))].map Prod.fst →
        b ∉ [((3 : Nat), (1 : Nat))].map Prod.fst → a < b →
        (a, va) ∈ m → (b, vb) ∈ m → va < vb) ∧
      (∀ k v, (k, v) ∈ [((3 : Nat), (1 : Nat))] → alook m k = alook m v) := by
  refine ⟨by decide, by decide, ?_⟩
  exact build_densification_map_spec [(3, 1)] 3 (by decide)
    (by decide) (by decide)

/-! Section: C2: detect_duplicate_references -/

theorem detectInner_mem (sim : Nat → Nat → Bool) (n1 : Nat) :
    ∀ (rest : List Nat) (d : List (Nat × Nat)) (e : Nat × Nat),
      e ∈ detectInner sim n1 rest d → e ∈ d ∨ (e.1 ∈ rest ∧ e.2 = n1) := by
  intro rest
  induction rest with
  | nil =>
    intro d e he
    exact Or.inl (by simpa [detectInner] using he)
  | cons n2 rs ih =>
    intro d e he
    by_cases h1 : (alook d n2).isSome
    · rcases ih d e (by simpa [detectInner, h1] using he) with h | h
      · exact Or.inl h
      · exact Or.inr ⟨List.mem_cons_of_mem _ h.1, h.2⟩
    · by_cases h2 : sim n1 n2
      · have he' : e ∈ detectInner sim n1 rs (d ++ [(n2, n1)]) := by
          simpa [detectInner, h1, h2] using he
        rcases ih _ e he' with h | h
        · rcases List.mem_append.mp h with h3 | h3
          · exact Or.inl h3
          · have : e = (n2, n1) := by simpa using h3
            subst this
            exact Or.inr ⟨List.mem_cons_self _ _, rfl⟩
        · exact Or.inr ⟨List.mem_cons_of_mem _ h.1, h.2⟩
      · rcases ih d e (by simpa [detectInner, h1, h2] using he) with h | h
        · exact Or.inl h
        · exact Or.inr ⟨List.mem_cons_of_mem _ h.1, h.2⟩

theorem detectOuter_invariant (sim : Nat → Nat → Bool) (l : List Nat) :
    ∀ (d : List (Nat × Nat)),
      l.Pairwise (· < ·) →
      (∀ e ∈ d, e.2 < e.1) →
      (∀ e ∈ d, e.2 ∉ d.map Prod.fst) →
      (∀ e ∈ d, ∀ m ∈ l, e.2 < m) →
      ∀ e ∈ detectOuter sim l d,
        e.2 < e.1 ∧ e.2 ∉ (detectOuter sim l d).map Prod.fst := by
  induction l with
  | nil =>
    intro d _ h1 h2 _ e he
    rw [detectOuter] at he ⊢
    exact ⟨h1 e he, h2 e he⟩
  | cons n1 rest ih =>
    intro d hpair h1 h2 h3
    rcases List.pairwise_cons.mp hpair with ⟨hn1, hrest⟩
    by_cases hkey : (alook d n1).isSome
    · intro e he
      rw [detectOuter, if_pos hkey] at he ⊢
      exact ih d hrest h1 h2 (fun e' he' m hm => h3 e' he' m (List.mem_cons_of_mem _ hm)) e he
    · have hn1key : n1 ∉ d.map Prod.fst := by
        have : alook d n1 = none := by
          rcases h : alook d n1 with _ | v
          · rfl
          · simp [h] at hkey
        exact (alook_eq_none d n1).mp this
      have hmem' : ∀ e ∈ detectInner sim n1 rest d, e ∈ d ∨ (e.1 ∈ rest ∧ e.2 = n1) :=
        detectInner_mem sim n1 rest d
      have inv1 : ∀ e ∈ detectInner sim n1 rest d, e.2 < e.1 := by
        intro e he
        rcases hmem' e he with h | h
        · exact h1 e h
        · have := hn1 e.1 h.1
          omega
      have inv2 : ∀ e ∈ detectInner sim n1 rest d,
          e.2 ∉ (detectInner sim n1 rest d).map Prod.fst := by
        intro e he hc
        rcases List.mem_map.mp hc with ⟨e', he', hfst⟩
        rcases hmem' e he with h | h
        · rcases hmem' e' he' with h' | h'
          · exact h2 e h (List.mem_map.mpr ⟨e', h', hfst⟩)
          · have hlt := h3 e h e'.1 (List.mem_cons_of_mem _ h'.1)
            omega
        · rcases hmem' e' he' with h' | h'
          · exact hn1key (h.2 ▸ hfst ▸ List.mem_map.mpr ⟨e', h', rfl⟩)
          · have := hn1 e'.1 h'.1
            omega
      have inv3 : ∀ e ∈ detectInner sim n1 rest d, ∀ m ∈ rest, e.2 < m := by
        intro e he m hm
        rcases hmem' e he with h | h
        · exact h3 e h m (List.mem_cons_of_mem _ hm)
        · have := hn1 m hm
          omega
      intro e he
      rw [detectOuter, if_neg hkey] at he ⊢
      exact ih (detectInner sim n1 rest d) hrest inv1 inv2 inv3 e he

/-- C2: for every references dict, every similarity oracle and every
threshold, each binding of the returned duplicates dict maps a key to a
strictly smaller value (the lower citation number is the canonical
original), and no value of the dict is itself a key (no chains). -/
theorem detect_duplicate_references_no_chains (references : List (Nat × List Char))
    (ratio : List Char → List Char → ℚ) (threshold : ℚ)
    (hnd : (references.map Prod.fst).Nodup) :
    ∀ k v, (k, v) ∈ detect_duplicate_references references ratio threshold →
      v < k ∧ v ∉ (detect_duplicate_references references ratio threshold).map Prod.fst := by
  intro k v hmem
  have hperm := List.perm_insertionSort (· ≤ ·) (references.map Prod.fst)
  have hnd' : (List.insertionSort (· ≤ ·) (references.map Prod.fst)).Nodup :=
    hperm.nodup_iff.mpr hnd
  have hle : (List.insertionSort (· ≤ ·) (references.map Prod.fst)).Pairwise (· ≤ ·) :=
    List.sorted_insertionSort (· ≤ ·) (references.map Prod.fst)
  have hpair : (List.insertionSort (· ≤ ·) (references.map Prod.fst)).Pairwise (· < ·) :=
    (hle.and hnd').imp (fun h => lt_of_le_of_ne h.1 h.2)
  exact detectOuter_invariant _ _ [] hpair (by simp) (by simp) (by simp) (k, v) hmem

/-- Witness for C2: two identical one-entry reference texts with a
similarity oracle that always returns 1 and threshold 0; the detector
returns `{2: 1}`, and the theorem applies to the binding `(2, 1)`. -/
theorem detect_duplicate_references_no_chains_witness :
    (([((1 : Nat), [' ']), (2, [' '])].map Prod.fst).Nodup) ∧
    ((1 : Nat) < 2 ∧ (1 : Nat) ∉
      (detect_duplicate_references [(1, [' ']), (2, [' '])] (fun _ _ => 1) 0).map Prod.fst) :=
  ⟨by decide,
    detect_duplicate_references_no_chains [(1, [' ']), (2, [' '])] (fun _ _ => 1) 0
      (by decide) 2 1 (by decide)⟩

/-! Section: sorted(set(...)) -/

theorem sortedDedup_perm (nums : List Nat) : List.Perm (sortedDedup nums) nums.dedup :=
  List.perm_insertionSort (· ≤ ·) nums.dedup

theorem sortedDedup_sorted (nums : List Nat) : (sortedDedup nums).Pairwise (· ≤ ·) :=
  List.sorted_insertionSort (· ≤ ·) nums.dedup

theorem sortedDedup_nodup (nums : List Nat) : (sortedDedup nums).Nodup :=
  (sortedDedup_perm nums).nodup_iff.mpr (List.nodup_dedup nums)

theorem sortedDedup_pairwise_lt (nums : List Nat) : (sortedDedup nums).Pairwise (· < ·) :=
  ((sortedDedup_sorted nums).and (sortedDedup_nodup nums)).imp
    (fun h => lt_of_le_of_ne h.1 h.2)

theorem sortedDedup_mem {nums : List Nat} {m : Nat} : m ∈ sortedDedup nums ↔ m ∈ nums := by
  rw [(sortedDedup_perm nums).mem_iff, List.mem_dedup]

theorem sortedDedup_eq_nil_iff {nums : List Nat} : sortedDedup nums = [] ↔ nums = [] := by
  constructor
  · intro h
    have hperm := sortedDedup_perm nums
    rw [h] at hperm
    have hd : nums.dedup = [] := hperm.symm.eq_nil
    exact (List.dedup_eq_nil nums).mp hd
  · rintro rfl
    rfl

theorem sortedDedup_idem {s : List Nat} (hs : s.Pairwise (· < ·)) : sortedDedup s = s := by
  unfold sortedDedup
  rw [List.dedup_eq_self.mpr (hs.imp Nat.ne_of_lt)]
  exact List.Sorted.insertionSort_eq (hs.imp Nat.le_of_lt)

/-! Section: Grouping into contiguous runs -/

theorem groupRunsAux_flatten :
    ∀ (t : List Nat) (start fin : Nat), start ≤ fin → List.Chain (· < ·) fin t →
      ((groupRunsAux start fin t).map (fun g => runList g.1 g.2)).flatten =
        runList start fin ++ t := by
  intro t
  induction t with
  | nil =>
    intro start fin h _
    simp [groupRunsAux]
  | cons n rest ih =>
    intro start fin h hchain
    rcases List.chain_cons.mp hchain with ⟨hfn, hrest⟩
    by_cases hn : n = fin + 1
    · subst hn
      have e : groupRunsAux start fin ((fin + 1) :: rest) = groupRunsAux start (fin + 1) rest := by
        simp [groupRunsAux]
      rw [e, ih start (fin + 1) (by omega) hrest, ← runList_concat h]
      simp
    · simp only [groupRunsAux, if_neg hn, List.map_cons, List.flatten_cons]
      rw [ih n n (le_refl n) hrest, runList_self]
      simp

theorem groupRunsAux_le :
    ∀ (t : List Nat) (start fin : Nat), start ≤ fin →
      ∀ g ∈ groupRunsAux start fin t, g.1 ≤ g.2 := by
  intro t
  induction t with
  | nil =>
    intro start fin h g hg
    simp only [groupRunsAux, List.mem_singleton] at hg
    subst hg
    exact h
  | cons n rest ih =>
    intro start fin h g hg
    by_cases hn : n = fin + 1
    · subst hn
      simp only [groupRunsAux, if_pos rfl] at hg
      exact ih start (fin + 1) (by omega) g hg
    · simp only [groupRunsAux, if_neg hn, List.mem_cons] at hg
      rcases hg with rfl | hg
      · exact h
      · exact ih n n (le_refl n) g hg

theorem groupRunsAux_ne_nil (t : List Nat) (start fin : Nat) :
    groupRunsAux start fin t ≠ [] := by
  induction t generalizing start fin with
  | nil => simp [groupRunsAux]
  | cons n rest ih =>
    by_cases hn : n = fin + 1
    · simpa only [groupRunsAux, if_pos hn] using ih start n
    · simp only [groupRunsAux, if_neg hn]
      simp

theorem groupParts_ne_nil (g : Nat × Nat) : groupParts g ≠ [] := by
  unfold groupParts
  split_ifs <;> simp

theorem groupParts_partOk (g : Nat × Nat) :
    ∀ p ∈ groupParts g, p ≠ [] ∧ ∀ c ∈ p, isPyDigit c = true ∨ c = '-' := by
  intro p hp
  unfold groupParts at hp
  split_ifs at hp <;> simp only [List.mem_singleton, List.mem_cons,
    List.mem_singleton, List.not_mem_nil, or_false] at hp
  · subst hp
    exact ⟨natToChars_ne_nil _, fun c hc => Or.inl (natToChars_all_digit _ c hc)⟩
  · rcases hp with rfl | rfl
    · exact ⟨natToChars_ne_nil _, fun c hc => Or.inl (natToChars_all_digit _ c hc)⟩
    · exact ⟨natToChars_ne_nil _, fun c hc => Or.inl (natToChars_all_digit _ c hc)⟩
  · subst hp
    refine ⟨by simp, ?_⟩
    intro c hc
    rcases List.mem_append.mp hc with hc | hc
    · exact Or.inl (natToChars_all_digit _ c hc)
    · rcases List.mem_cons.mp hc with rfl | hc
      · exact Or.inr rfl
      · exact Or.inl (natToChars_all_digit _ c hc)

theorem groupParts_flatMap_extract {g : Nat × Nat} (h : g.1 ≤ g.2) :
    (groupParts g).flatMap extractPart = runList g.1 g.2 := by
  unfold groupParts
  split_ifs with h1 h2
  · simp [extractPart_nat, h1, runList_self]
  · simp [extractPart_nat, h2, runList_pair]
  · simp [extractPart_range]

/-! Section: Specification-side runs -/

theorem specRuns_flatten : ∀ (l : List Nat), (specRuns l).flatten = l := by
  intro l
  induction l with
  | nil => rfl
  | cons n rest ih =>
    rcases hr : specRuns rest with _ | ⟨g, gs⟩
    · rw [hr] at ih
      simp only [specRuns, hr]
      simp only [List.flatten_nil] at ih
      simp [ih.symm]
    · rcases g with _ | ⟨m, g2⟩
      · rw [hr] at ih
        simp only [specRuns, hr]
        simp only [List.flatten_cons, List.nil_append] at ih
        simp [ih]
      · rw [hr] at ih
        simp only [specRuns, hr]
        by_cases hm : m = n + 1
        · rw [if_pos hm]
          simp only [List.flatten_cons, List.cons_append] at ih ⊢
          simp [ih]
        · rw [if_neg hm]
          simp only [List.flatten_cons, List.cons_append] at ih ⊢
          simp [ih]

theorem specRuns_head (n : Nat) (rest : List Nat) :
    ∃ g gs, specRuns (n :: rest) = (n :: g) :: gs := by
  rcases hr : specRuns rest with _ | ⟨g, gs⟩
  · exact ⟨[], [], by simp [specRuns, hr]⟩
  · rcases g with _ | ⟨m, g2⟩
    · exact ⟨[], [] :: gs, by simp [specRuns, hr]⟩
    · by_cases hm : m = n + 1
      · exact ⟨m :: g2, gs, by simp [specRuns, hr, if_pos hm]⟩
      · exact ⟨[], (m :: g2) :: gs, by simp [specRuns, hr, if_neg hm]⟩

theorem specRuns_cons_general (n x : Nat) (xs : List Nat) {m : Nat} {g : List Nat}
    {gs : List (List Nat)} (hX : specRuns (x :: xs) = (m :: g) :: gs) :
    specRuns (n :: x :: xs) =
      if m = n + 1 then (n :: m :: g) :: gs else [n] :: (m :: g) :: gs := by
  rw [specRuns.eq_def]
  simp only [hX]

theorem specRuns_runList_append :
    ∀ (k a b : Nat), b - a = k → a ≤ b →
      ∀ (l : List Nat), (∀ m, l.head? = some m → ¬(m = b + 1)) →
      specRuns (runList a b ++ l) = runList a b :: specRuns l := by
  intro k
  induction k with
  | zero =>
    intro a b hk hab l hl
    have hba : a = b := by omega
    subst hba
    rw [runList_self]
    cases l with
    | nil => rfl
    | cons y ys =>
      have hy : ¬(y = a + 1) := hl y rfl
      obtain ⟨g, gs, hg⟩ := specRuns_head y ys
      rw [List.singleton_append, specRuns_cons_general a y ys hg, if_neg hy, ← hg]
  | succ k ih =>
    intro a b hk hab l hl
    have hab2 : a + 1 ≤ b := by omega
    have ih2 := ih (a + 1) b (by omega) hab2 l hl
    have hshape : runList (a + 1) b ++ l = (a + 1) :: (runList (a + 2) b ++ l) := by
      rw [runList_cons hab2, List.cons_append]
    have hg : specRuns ((a + 1) :: (runList (a + 2) b ++ l)) =
        ((a + 1) :: runList (a + 2) b) :: specRuns l := by
      rw [← hshape, ih2, runList_cons hab2]
    rw [runList_cons (by omega : a ≤ b), List.cons_append, hshape,
      specRuns_cons_general a (a + 1) (runList (a + 2) b ++ l) hg, if_pos rfl,
      ← runList_cons hab2, ← runList_cons (by omega : a ≤ b)]

theorem groupRunsAux_spec :
    ∀ (t : List Nat) (start fin : Nat), start ≤ fin → List.Chain (· < ·) fin t →
      specRuns (runList start fin ++ t) =
        (groupRunsAux start fin t).map (fun g => runList g.1 g.2) := by
  intro t
  induction t with
  | nil =>
    intro start fin h _
    have e := specRuns_runList_append (fin - start) start fin rfl h [] (by simp)
    simp only [List.append_nil] at e
    rw [List.append_nil, e]
    simp [groupRunsAux, specRuns]
  | cons n rest ih =>
    intro start fin h hchain
    rcases List.chain_cons.mp hchain with ⟨hfn, hrest⟩
    by_cases hn : n = fin + 1
    · subst hn
      have e1 : runList start fin ++ (fin + 1) :: rest = runList start (fin + 1) ++ rest := by
        rw [← runList_concat h]
        simp
      rw [e1, ih start (fin + 1) (by omega) hrest]
      simp [groupRunsAux]
    · have hl : ∀ m, (n :: rest).head? = some m → ¬(m = fin + 1) := by
        intro m hm
        simp only [List.head?_cons, Option.some.injEq] at hm
        subst hm
        exact hn
      have e3 : (groupRunsAux start fin (n :: rest)).map (fun g => runList g.1 g.2) =
          runList start fin :: (groupRunsAux n n rest).map (fun g => runList g.1 g.2) := by
        simp [groupRunsAux, hn]
      rw [specRuns_runList_append (fin - start) start fin rfl h (n :: rest) hl, e3]
      congr 1
      have e2 : n :: rest = runList n n ++ rest := by simp [runList_self]
      rw [e2]
      exact ih n n (le_refl n) hrest

theorem specRender_runList {a b : Nat} (h : a ≤ b) :
    specRender (runList a b) = groupParts (a, b) := by
  by_cases h1 : b = a
  · subst h1
    rw [runList_self]
    simp [groupParts, specRender]
  · by_cases h2 : b = a + 1
    · subst h2
      rw [runList_pair]
      simp [groupParts, specRender]
    · have hab2 : a + 2 ≤ b := by omega
      rw [runList_cons h, runList_cons (by omega : a + 1 ≤ b)]
      rcases hx : runList (a + 2) b with _ | ⟨y, ys⟩
      · exact absurd hx (runList_ne_nil (by omega))
      · have hlast : ((a + 1) :: y :: ys).getLastD a = b := by
          rw [← hx, ← runList_cons (by omega : a + 1 ≤ b)]
          exact runList_getLastD (by omega) a
        simp only [specRender, hlast]
        simp [groupParts, h1, h2]

theorem specRuns_isSingleBare {l : List Nat} {q : Nat} {t : List Nat}
    (hflat : (specRuns l).flatten = l) (hshape : l = q :: t) (ht : t ≠ []) :
    isSingleBare (specRuns l) = false := by
  rcases hr : specRuns l with _ | ⟨g, gs⟩
  · rw [hr] at hflat
    simp only [List.flatten_nil] at hflat
    rw [hshape] at hflat
    exact absurd hflat.symm (by simp)
  · rcases g with _ | ⟨x, g2⟩
    · rfl
    · rcases g2 with _ | ⟨y, g3⟩
      · rcases gs with _ | ⟨g4, gs2⟩
        · rw [hr] at hflat
          simp only [List.flatten_cons, List.flatten_nil, List.append_nil] at hflat
          rw [hshape] at hflat
          rcases t with _ | ⟨t1, t2⟩
          · exact absurd rfl ht
          · simp at hflat
        · rfl
      · rfl

/-- The formatter agrees with the description in the specification: dedupe and
sort, group into maximal contiguous runs, render a run of length 1 as the
bare number, of length 2 as two comma parts, of length 3 or more as
`start-end`, join with comma-space, and prefix `Citation` exactly when the
result is one bare number. -/
theorem format_eq_formatSpec (nums : List Nat) :
    format_numbers_to_citation nums = formatSpec nums := by
  by_cases hnil : nums = []
  · subst hnil
    rfl
  · have hene : nums.isEmpty = false := by simpa using hnil
    rcases hs : sortedDedup nums with _ | ⟨h, t⟩
    · exact absurd (sortedDedup_eq_nil_iff.mp hs) hnil
    · have hpair : (h :: t).Pairwise (· < ·) := hs ▸ sortedDedup_pairwise_lt nums
      rcases t with _ | ⟨q, t2⟩
      · simp only [format_numbers_to_citation, formatSpec, hene, Bool.false_eq_true,
          if_false, hs]
        rfl
      · have hchain : List.Chain (· < ·) h (q :: t2) := by
          have := List.chain'_iff_pairwise.mpr hpair
          exact this
        have hruns : specRuns (h :: q :: t2) =
            (groupRunsAux h h (q :: t2)).map (fun g => runList g.1 g.2) := by
          have hgs := groupRunsAux_spec (q :: t2) h h (le_refl h) hchain
          rw [runList_self] at hgs
          simpa using hgs
        have hflat : (specRuns (h :: q :: t2)).flatten = h :: q :: t2 := specRuns_flatten _
        have hsingle : isSingleBare (specRuns (h :: q :: t2)) = false :=
          specRuns_isSingleBare hflat rfl (by simp)
        have hcong : ∀ g ∈ groupRunsAux h h (q :: t2),
            specRender (runList g.1 g.2) = groupParts g := by
          intro g hg
          exact specRender_runList (groupRunsAux_le (q :: t2) h h (le_refl h) g hg)
        have hparts : (specRuns (h :: q :: t2)).flatMap specRender =
            (groupRunsAux h h (q :: t2)).flatMap groupParts := by
          rw [hruns, List.flatMap_map]
          show ((groupRunsAux h h (q :: t2)).map
            (fun g => specRender (runList g.1 g.2))).flatten = _
          rw [List.map_congr_left hcong]
          rfl
        simp only [format_numbers_to_citation, formatSpec, hene, Bool.false_eq_true,
          if_false, hs, hsingle, hparts]

/-- C4: `format_numbers_to_citation` dedupes and sorts, groups into maximal
contiguous runs rendered as bare number / two comma parts / `start-end` by
run length, joins groups with comma-space, and uses the singular prefix exactly
when the result is one bare number; in particular
`format_numbers_to_citation([1,2,5,6,7]) = "Citations 1, 2, 5-7"`. -/
theorem format_numbers_to_citation_spec :
    (∀ nums : List Nat, format_numbers_to_citation nums = formatSpec nums) ∧
    format_numbers_to_citation [1, 2, 5, 6, 7] = ("Citations 1, 2, 5-7").data :=
  ⟨format_eq_formatSpec, by decide⟩

/-! Section: C3: the format / extract round trip -/

theorem joinParts_head_shape (p : List Char) (ps : List (List Char)) :
    ∃ X, joinParts (p :: ps) = p ++ X := by
  cases ps with
  | nil => exact ⟨[], by simp [joinParts_single]⟩
  | cons q ps2 => exact ⟨',' :: ' ' :: joinParts (q :: ps2), rfl⟩

theorem dropWhile_space_joinParts {p : List Char} (ps : List (List Char))
    (hp : p ≠ []) (hdig : ∀ c ∈ p, isPyDigit c = true ∨ c = '-') :
    (joinParts (p :: ps)).dropWhile isPySpace = joinParts (p :: ps) := by
  obtain ⟨X, hX⟩ := joinParts_head_shape p ps
  rw [hX]
  rcases p with _ | ⟨c, cs⟩
  · exact absurd rfl hp
  · rw [List.cons_append]
    exact dropWhile_cons_neg _
      (not_space_of_digit_or_dash (hdig c (List.mem_cons_self _ _)))

theorem parts_partOk (groups : List (Nat × Nat)) :
    ∀ p ∈ groups.flatMap groupParts,
      p ≠ [] ∧ ∀ c ∈ p, isPyDigit c = true ∨ c = '-' := by
  intro p hp
  rcases List.mem_flatMap.mp hp with ⟨g, hg, hpg⟩
  exact groupParts_partOk g p hpg

theorem flatMap_groupParts_ne_nil {groups : List (Nat × Nat)} (hg : groups ≠ []) :
    groups.flatMap groupParts ≠ [] := by
  rcases groups with _ | ⟨g, gs⟩
  · exact absurd rfl hg
  · intro hc
    rcases hx : groupParts g with _ | ⟨p, psx⟩
    · exact groupParts_ne_nil g hx
    · rw [List.flatMap_cons, hx] at hc
      simp at hc

theorem extract_format (nums : List Nat) (hne : nums ≠ []) :
    extract_numbers_from_citation (format_numbers_to_citation nums) = sortedDedup nums := by
  have hene : nums.isEmpty = false := by simpa using hne
  rcases hs : sortedDedup nums with _ | ⟨h, t⟩
  · exact absurd (sortedDedup_eq_nil_iff.mp hs) hne
  · have hpair : (h :: t).Pairwise (· < ·) := hs ▸ sortedDedup_pairwise_lt nums
    rcases t with _ | ⟨q, t2⟩
    · have hformat : format_numbers_to_citation nums = citationSingularPfx ++ natToChars h := by
        simp only [format_numbers_to_citation, hene, Bool.false_eq_true, if_false, hs]
      rw [hformat]
      have hD : ∀ c ∈ natToChars h, isPySpace c = false :=
        fun c hc => isPyDigit_not_space (natToChars_all_digit h c hc)
      have hT : startsWithChars tableWord (citationSingularPfx ++ natToChars h) = false :=
        table_not_citation (' ' :: natToChars h)
      have hstrip : stripCitationPfx (citationSingularPfx ++ natToChars h) = natToChars h :=
        stripCitationPfx_singular (dropWhile_eq_self_of_all hD)
      have hnocomma : ',' ∉ natToChars h :=
        fun hc => isPyDigit_ne_comma (natToChars_all_digit h ',' hc) rfl
      unfold extract_numbers_from_citation
      simp only [hT, Bool.false_eq_true, if_false, hstrip]
      rw [splitOnChar_no_sep hnocomma]
      simp only [List.map_cons, List.map_nil]
      rw [pyStrip_eq_self hD]
      simp only [List.flatMap_cons, List.flatMap_nil, List.append_nil]
      rw [extractPart_nat]
    · have hchain : List.Chain (· < ·) h (q :: t2) := by
        have := List.chain'_iff_pairwise.mpr hpair
        exact this
      have hgne : groupRunsAux h h (q :: t2) ≠ [] := groupRunsAux_ne_nil _ _ _
      have hPok := parts_partOk (groupRunsAux h h (q :: t2))
      have hPne : (groupRunsAux h h (q :: t2)).flatMap groupParts ≠ [] :=
        flatMap_groupParts_ne_nil hgne
      obtain ⟨p0, ps0, hP⟩ : ∃ p0 ps0,
          (groupRunsAux h h (q :: t2)).flatMap groupParts = p0 :: ps0 := by
        rcases hx : (groupRunsAux h h (q :: t2)).flatMap groupParts with _ | ⟨p0, ps0⟩
        · exact absurd hx hPne
        · exact ⟨p0, ps0, rfl⟩
      have hp0 := hPok p0 (hP ▸ List.mem_cons_self _ _)
      have hdropfix : (joinParts ((groupRunsAux h h (q :: t2)).flatMap groupParts)).dropWhile
          isPySpace = joinParts ((groupRunsAux h h (q :: t2)).flatMap groupParts) := by
        rw [hP]
        exact dropWhile_space_joinParts ps0 hp0.1 hp0.2
      have hformat : format_numbers_to_citation nums =
          citationPluralPfx ++ joinParts ((groupRunsAux h h (q :: t2)).flatMap groupParts) := by
        simp only [format_numbers_to_citation, hene, Bool.false_eq_true, if_false, hs]
      rw [hformat]
      have hT : startsWithChars tableWord (citationPluralPfx ++
          joinParts ((groupRunsAux h h (q :: t2)).flatMap groupParts)) = false :=
        table_not_citation ('s' :: ' ' ::
          joinParts ((groupRunsAux h h (q :: t2)).flatMap groupParts))
      have hstrip : stripCitationPfx (citationPluralPfx ++
          joinParts ((groupRunsAux h h (q :: t2)).flatMap groupParts)) =
          joinParts ((groupRunsAux h h (q :: t2)).flatMap groupParts) :=
        stripCitationPfx_plural hdropfix
      unfold extract_numbers_from_citation
      simp only [hT, Bool.false_eq_true, if_false, hstrip]
      rw [split_strip_join _ hPok hPne, List.flatMap_assoc]
      have hcong : ∀ g ∈ groupRunsAux h h (q :: t2),
          (groupParts g).flatMap extractPart = runList g.1 g.2 := fun g hg =>
        groupParts_flatMap_extract (groupRunsAux_le (q :: t2) h h (le_refl h) g hg)
      have hmid : (groupRunsAux h h (q :: t2)).flatMap
          (fun g => (groupParts g).flatMap extractPart) =
          ((groupRunsAux h h (q :: t2)).map (fun g => runList g.1 g.2)).flatten := by
        show ((groupRunsAux h h (q :: t2)).map
          (fun g => (groupParts g).flatMap extractPart)).flatten = _
        rw [List.map_congr_left hcong]
      rw [hmid, groupRunsAux_flatten (q :: t2) h h (le_refl h) hchain, runList_self]
      simp

/-- C3: formatting a non-empty list of positive integers, extracting the
numbers back out of the citation string, and formatting again reproduces
the same string, and the extracted numbers form exactly the set of the
original input numbers. -/
theorem format_extract_roundtrip (nums : List Nat) (hne : nums ≠ [])
    (hpos : ∀ n ∈ nums, 0 < n) :
    format_numbers_to_citation (extract_numbers_from_citation
        (format_numbers_to_citation nums)) = format_numbers_to_citation nums ∧
    (extract_numbers_from_citation (format_numbers_to_citation nums)).toFinset =
      nums.toFinset := by
  rw [extract_format nums hne]
  constructor
  · unfold format_numbers_to_citation
    have h1 : (sortedDedup nums).isEmpty = false := by
      simpa using (fun hc => hne (sortedDedup_eq_nil_iff.mp hc))
    have h2 : nums.isEmpty = false := by simpa using hne
    rw [sortedDedup_idem (sortedDedup_pairwise_lt nums)]
    simp only [h1, h2, Bool.false_eq_true, if_false]
  · ext x
    simp [List.mem_toFinset, sortedDedup_mem]

/-- Witness for C3 at the unsorted duplicated input `[5, 1, 2, 6, 7, 5]`. -/
theorem format_extract_roundtrip_witness :
    (([5, 1, 2, 6, 7, 5] : List Nat) ≠ [] ∧
      ∀ n ∈ ([5, 1, 2, 6, 7, 5] : List Nat), 0 < n) ∧
    (format_numbers_to_citation (extract_numbers_from_citation
        (format_numbers_to_citation [5, 1, 2, 6, 7, 5])) =
      format_numbers_to_citation [5, 1, 2, 6, 7, 5] ∧
    (extract_numbers_from_citation
        (format_numbers_to_citation [5, 1, 2, 6, 7, 5])).toFinset =
      ([5, 1, 2, 6, 7, 5] : List Nat).toFinset) :=
  ⟨⟨by decide, by decide⟩,
    format_extract_roundtrip [5, 1, 2, 6, 7, 5] (by decide) (by decide)⟩

/-! Section: C10: descending ranges parse but expand to nothing -/

/-- C10: for positive `M < N`, `parse_citation` accepts the raw text `N-M`
and returns the single citation string `Citations N-M`, while
`extract_numbers_from_citation` on that string returns the empty list — the
inclusive range from `N` up to `M` is empty. -/
theorem descending_range_empty (N M : Nat) (hM : 0 < M) (hNM : M < N) :
    parse_citation (natToChars N ++ '-' :: natToChars M) =
      [citationPluralPfx ++ (natToChars N ++ '-' :: natToChars M)] ∧
    extract_numbers_from_citation
      (citationPluralPfx ++ (natToChars N ++ '-' :: natToChars M)) = [] := by
  have hchars : ∀ c ∈ natToChars N ++ '-' :: natToChars M,
      isPyDigit c = true ∨ c = '-' := by
    intro c hc
    rcases List.mem_append.mp hc with hc | hc
    · exact Or.inl (natToChars_all_digit N c hc)
    · rcases List.mem_cons.mp hc with rfl | hc
      · exact Or.inr rfl
      · exact Or.inl (natToChars_all_digit M c hc)
  have hnospace : ∀ c ∈ natToChars N ++ '-' :: natToChars M, isPySpace c = false :=
    fun c hc => not_space_of_digit_or_dash (hchars c hc)
  have hnocomma : ',' ∉ natToChars N ++ '-' :: natToChars M := by
    intro hc
    exact digit_or_dash_ne_comma (hchars ',' hc) rfl
  have hstrip : pyStrip (natToChars N ++ '-' :: natToChars M) =
      natToChars N ++ '-' :: natToChars M := pyStrip_eq_self hnospace
  have hrange : isRangePat (natToChars N ++ '-' :: natToChars M) = true := by
    simp [isRangePat, parseRangePart_digits_dash]
  have hne : (natToChars N ++ '-' :: natToChars M).isEmpty = false := by
    rcases hx : natToChars N with _ | ⟨c, cs⟩
    · exact absurd hx (natToChars_ne_nil N)
    · rfl
  have hdash : (natToChars N ++ '-' :: natToChars M).contains '-' = true :=
    List.elem_eq_true_of_mem (by simp)
  constructor
  · unfold parse_citation
    simp only [hstrip, splitOnChar_no_sep hnocomma, List.map_cons, List.map_nil,
      List.filter_cons, List.filter_nil, hne, Bool.not_false, if_true, hrange,
      Bool.or_true, List.isEmpty_cons, Bool.false_eq_true, if_false, joinParts_single,
      hdash, List.length_cons, List.length_nil]
  · have hdropfix : (natToChars N ++ '-' :: natToChars M).dropWhile isPySpace =
        natToChars N ++ '-' :: natToChars M := dropWhile_eq_self_of_all hnospace
    have hT : startsWithChars tableWord (citationPluralPfx ++
        (natToChars N ++ '-' :: natToChars M)) = false := by
      rcases hx : natToChars N with _ | ⟨c, cs⟩
      · exact absurd hx (natToChars_ne_nil N)
      · exact table_not_citation _
    have hstrip2 : stripCitationPfx (citationPluralPfx ++
        (natToChars N ++ '-' :: natToChars M)) =
        natToChars N ++ '-' :: natToChars M := stripCitationPfx_plural hdropfix
    unfold extract_numbers_from_citation
    simp only [hT, Bool.false_eq_true, if_false, hstrip2]
    rw [splitOnChar_no_sep hnocomma]
    simp only [List.map_cons, List.map_nil]
    rw [pyStrip_eq_self hnospace]
    simp only [List.flatMap_cons, List.flatMap_nil, List.append_nil]
    rw [extractPart_range]
    simp only [runList, List.range'_eq_nil]
    omega

/-- Witness for C10 at `N = 5`, `M = 3` (the raw token `5-3`). -/
theorem descending_range_empty_witness :
    ((0 : Nat) < 3 ∧ (3 : Nat) < 5) ∧
    (parse_citation (natToChars 5 ++ '-' :: natToChars 3) =
      [citationPluralPfx ++ (natToChars 5 ++ '-' :: natToChars 3)] ∧
    extract_numbers_from_citation
      (citationPluralPfx ++ (natToChars 5 ++ '-' :: natToChars 3)) = []) :=
  ⟨⟨by decide, by decide⟩, descending_range_empty 5 3 (by decide) (by decide)⟩

/-! Section: C5: apply_citation_mappings -/

/-- C5: `apply_citation_mappings` returns exactly the sorted duplicate-free
list of the values obtained by mapping each number through the duplicate
dict (default: itself) and then the densification dict (default: itself):
the output is strictly increasing — hence duplicate-free — and its members
are exactly the mapped values; in particular
`apply_citation_mappings([100, 171], {171: 100}, {100: 98, 171: 98}) = [98]`. -/
theorem apply_citation_mappings_spec :
    (∀ (nums : List Nat) (dup_map dense_map : List (Nat × Nat)),
      (apply_citation_mappings nums dup_map dense_map).Pairwise (· < ·) ∧
      ∀ x, x ∈ apply_citation_mappings nums dup_map dense_map ↔
        ∃ n ∈ nums, x = (alook dense_map ((alook dup_map n).getD n)).getD
          ((alook dup_map n).getD n)) ∧
    apply_citation_mappings [100, 171] [(171, 100)] [(100, 98), (171, 98)] = [98] := by
  refine ⟨?_, by decide⟩
  intro nums dup_map dense_map
  constructor
  · show (sortedDedup _).Pairwise (· < ·)
    exact sortedDedup_pairwise_lt _
  · intro x
    show x ∈ sortedDedup _ ↔ _
    rw [sortedDedup_mem]
    constructor
    · intro hx
      rcases List.mem_map.mp hx with ⟨a, ha, rfl⟩
      rcases List.mem_map.mp ha with ⟨n, hn, rfl⟩
      exact ⟨n, hn, rfl⟩
    · rintro ⟨n, hn, rfl⟩
      exact List.mem_map.mpr ⟨_, List.mem_map.mpr ⟨n, hn, rfl⟩, rfl⟩

/-! Section: C6: is_left_side_superscript -/

/-- C6: `is_left_side_superscript` returns `True` exactly when the
following text is non-empty, its first character is a letter, its leading
maximal run of letters has length at most two, and that leading word is not
in the author-name set; in particular it accepts `"Xe MRI"`, rejects the
empty string, and rejects `"Li et al"` when `Li` is a known author name. -/
theorem is_left_side_superscript_spec :
    (∀ (s : List Char) (an : List (List Char)),
      is_left_side_superscript s an = true ↔
        (∃ c rest, s = c :: rest ∧ isPyAlpha c = true) ∧
        (s.takeWhile isPyAlpha).length ≤ 2 ∧ s.takeWhile isPyAlpha ∉ an) ∧
    is_left_side_superscript (("Xe MRI").data) [] = true ∧
    is_left_side_superscript [] [] = false ∧
    is_left_side_superscript (("Li et al").data) [("Li").data] = false := by
  refine ⟨?_, by decide, by decide, by decide⟩
  intro s an
  cases s with
  | nil =>
    simp only [is_left_side_superscript, Bool.false_eq_true, false_iff]
    rintro ⟨⟨c, rest, heq, -⟩, -, -⟩
    exact List.noConfusion heq
  | cons c rest =>
    unfold is_left_side_superscript firstWord
    by_cases hc : isPyAlpha c = true
    · simp only [hc, Bool.not_true, Bool.false_eq_true, if_false]
      by_cases hmem : (c :: rest).takeWhile isPyAlpha ∈ an
      · have hane : an.isEmpty = false := by
          rcases an with _ | _
          · simp at hmem
          · rfl
        have hcont : an.contains ((c :: rest).takeWhile isPyAlpha) = true :=
          List.elem_eq_true_of_mem hmem
        simp only [hane, Bool.not_false, Bool.true_and, hcont, if_true]
        simp [hmem]
      · have hcont : (!an.isEmpty && an.contains ((c :: rest).takeWhile isPyAlpha)) =
            false := by
          rcases an with _ | ⟨a0, an2⟩
          · rfl
          · simp only [List.isEmpty_cons, Bool.not_false, Bool.true_and]
            rw [← Bool.not_eq_true]
            intro hcc
            exact hmem (List.elem_iff.mp hcc)
        simp only [hcont, Bool.false_eq_true, if_false, decide_eq_true_eq]
        constructor
        · intro hlen
          exact ⟨⟨c, rest, rfl, hc⟩, hlen, hmem⟩
        · rintro ⟨-, hlen, -⟩
          exact hlen
    · have hc2 : isPyAlpha c = false := by simpa using hc
      simp only [hc2, Bool.not_false, if_true, Bool.false_eq_true, false_iff]
      rintro ⟨⟨c2, rest2, heq, halpha⟩, -, -⟩
      have hcc : c2 = c := by
        injection heq with hx hy
        exact hx.symm
      rw [hcc] at halpha
      exact absurd halpha (by simp [hc2])

/-! Section: C7: build_canonical_order -/

theorem addUnseen_append (order ns1 ns2 : List Nat) :
    addUnseen order (ns1 ++ ns2) = addUnseen (addUnseen order ns1) ns2 :=
  List.foldl_append _ _ _ _

theorem addUnseen_mem (ns : List Nat) :
    ∀ (order : List Nat) (x : Nat), x ∈ addUnseen order ns ↔ x ∈ order ∨ x ∈ ns := by
  induction ns with
  | nil => intro order x; simp [addUnseen]
  | cons n rest ih =>
    intro order x
    show x ∈ addUnseen (if n ∈ order then order else order ++ [n]) rest ↔ _
    by_cases hn : n ∈ order
    · rw [if_pos hn, ih]
      constructor
      · rintro (hx | hx)
        · exact Or.inl hx
        · exact Or.inr (List.mem_cons_of_mem _ hx)
      · rintro (hx | hx)
        · exact Or.inl hx
        · rcases List.mem_cons.mp hx with rfl | hx
          · exact Or.inl hn
          · exact Or.inr hx
    · rw [if_neg hn, ih]
      simp only [List.mem_append, List.mem_singleton, List.mem_cons]
      tauto

theorem addUnseen_nodup (ns : List Nat) :
    ∀ (order : List Nat), order.Nodup → (addUnseen order ns).Nodup := by
  induction ns with
  | nil => intro order h; exact h
  | cons n rest ih =>
    intro order h
    show (addUnseen (if n ∈ order then order else order ++ [n]) rest).Nodup
    by_cases hn : n ∈ order
    · rw [if_pos hn]
      exact ih order h
    · rw [if_neg hn]
      refine ih _ ?_
      rw [List.nodup_append]
      refine ⟨h, List.nodup_singleton n, ?_⟩
      intro a ha hb
      simp only [List.mem_singleton] at hb
      subst hb
      exact hn ha

theorem foldl_addUnseen_flatMap (expand : List Char → List Nat) (cites : List (List Char)) :
    ∀ (order : List Nat),
      cites.foldl (fun o cite => addUnseen o (expand cite)) order =
        addUnseen order (cites.flatMap expand) := by
  induction cites with
  | nil => intro order; rfl
  | cons cite rest ih =>
    intro order
    rw [List.foldl_cons, ih, List.flatMap_cons, addUnseen_append]

theorem build_canonical_order_eq_addUnseen
    (tables : List (List Char × List (List Char)))
    (paras : List (List Char × List Char × List (List Char))) :
    build_canonical_order tables paras = addUnseen [] (canonicalStream tables paras) := by
  suffices h : ∀ (ps : List (List Char × List Char × List (List Char))) (order : List Nat),
      ps.foldl (fun order p =>
        p.2.2.foldl (fun o cite => addUnseen o (expandCite tables cite)) order) order =
        addUnseen order (ps.flatMap (fun p => p.2.2.flatMap (expandCite tables))) by
    exact h paras []
  intro ps
  induction ps with
  | nil => intro order; rfl
  | cons p rest ih =>
    intro order
    rw [List.foldl_cons, ih, List.flatMap_cons, addUnseen_append,
      foldl_addUnseen_flatMap]

/-- C7: `build_canonical_order` is the first-appearance deduplication of
the citation-number stream obtained by walking paragraphs in order and
inlining the citations of each table at its reference point: it equals
`addUnseen [] stream`, is duplicate-free, and holds exactly the stream's
numbers; the two closed examples show the inline expansion
`[1, 9, 10, 2]` and that a Table reference whose Roman numeral is absent
from the map contributes nothing. -/
theorem build_canonical_order_spec :
    (∀ (tables : List (List Char × List (List Char)))
        (paras : List (List Char × List Char × List (List Char))),
      build_canonical_order tables paras = addUnseen [] (canonicalStream tables paras) ∧
      (build_canonical_order tables paras).Nodup ∧
      ∀ n, n ∈ build_canonical_order tables paras ↔ n ∈ canonicalStream tables paras) ∧
    build_canonical_order [(("I").data, [("Citation 9").data, ("Citation 10").data])]
      [(("p").data, ("t").data,
        [("Citation 1").data, ("Table I").data, ("Citation 2").data])] = [1, 9, 10, 2] ∧
    build_canonical_order []
      [(("p").data, ("t").data,
        [("Citation 1").data, ("Table I").data, ("Citation 2").data])] = [1, 2] := by
  refine ⟨?_, by decide, by decide⟩
  intro tables paras
  refine ⟨build_canonical_order_eq_addUnseen tables paras, ?_, ?_⟩
  · rw [build_canonical_order_eq_addUnseen]
    exact addUnseen_nodup _ [] List.nodup_nil
  · intro n
    rw [build_canonical_order_eq_addUnseen, addUnseen_mem]
    simp

/-! Section: C8: parse_citation -/

theorem filter_nonempty_comm (L : List (List Char)) :
    (L.filter (fun p => !p.isEmpty)).filter (fun p => isAllDigits p || isRangePat p) =
      L.filter (fun p => isAllDigits p || isRangePat p) := by
  induction L with
  | nil => rfl
  | cons p ps ih =>
    by_cases hp : p.isEmpty = true
    · have hplist : p = [] := by
        rcases p with _ | _
        · rfl
        · simp at hp
      subst hplist
      have hval : (isAllDigits ([] : List Char) || isRangePat []) = false := by decide
      simp [List.filter_cons, hval, ih]
    · have hp2 : (!p.isEmpty) = true := by simp [hp]
      simp [List.filter_cons, hp2, ih]

theorem isRangePat_contains_dash {p : List Char} (hr : isRangePat p = true) :
    p.contains '-' = true := by
  unfold isRangePat parseRangePart at hr
  rcases hd : p.dropWhile isPyDigit with _ | ⟨c, d2⟩
  · rw [hd] at hr
    simp at hr
  · rw [hd] at hr
    by_cases hc : c = '-'
    · subst hc
      have hmem : '-' ∈ p := by
        rw [← List.takeWhile_append_dropWhile (p := isPyDigit) (l := p), hd]
        simp
      exact List.elem_eq_true_of_mem hmem
    · simp [hc] at hr

theorem isAllDigits_no_dash {p : List Char} (ha : isAllDigits p = true) :
    p.contains '-' = false := by
  rw [← Bool.not_eq_true]
  intro hc
  have hmem : '-' ∈ p := List.elem_iff.mp hc
  have hall : p.all isPyDigit = true := (Bool.and_eq_true_iff.mp ha).2
  have := List.all_eq_true.mp hall '-' hmem
  exact absurd this (by decide)

theorem plural_prefix_eq (V : List (List Char))
    (hval : ∀ p ∈ V, (isAllDigits p || isRangePat p) = true) (hne : V ≠ []) :
    (if decide (1 < V.length) || (joinParts V).contains '-' then citationPluralPfx
     else citationSingularPfx) =
    (if V.length = 1 ∧ (∀ p ∈ V, isRangePat p = false) then citationSingularPfx
     else citationPluralPfx) := by
  rcases V with _ | ⟨p, V2⟩
  · exact absurd rfl hne
  · cases V2 with
    | nil =>
      have hv := hval p (List.mem_cons_self _ _)
      simp only [List.length_cons, List.length_nil, joinParts_single]
      by_cases hr : isRangePat p = true
      · simp only [isRangePat_contains_dash hr]
        simp [hr]
      · have hr2 : isRangePat p = false := by simpa using hr
        have hd : isAllDigits p = true := by
          rcases Bool.or_eq_true_iff.mp hv with h | h
          · exact h
          · exact absurd h hr
        simp only [isAllDigits_no_dash hd]
        simp [hr2]
    | cons q V3 =>
      simp only [List.length_cons]
      have h1 : 1 < V3.length + 1 + 1 := by omega
      have h2 : ¬(V3.length + 1 + 1 = 1) := by omega
      simp [h1, h2]

/-- C8 counterexample to the claim as written: on the input `"42 , x"` no
comma-separated part of the trimmed input matches `^\d+$` or `^\d+-\d+$`
(the part `"42 "` carries a trailing space), yet `parse_citation` returns
`["Citation 42"]`, not the empty list: the source strips each part before
matching. -/
theorem parse_citation_claim_counterexample :
    ((splitOnChar ',' (pyStrip (("42 , x").data))).filter
      (fun p => isAllDigits p || isRangePat p)) = [] ∧
    parse_citation (("42 , x").data) = [("Citation 42").data] :=
  ⟨by decide, by decide⟩

/-- C8 (amended): `parse_citation` never raises; it returns the empty list
exactly when no comma-separated part of the trimmed input, once itself
stripped of surrounding whitespace, matches `^\d+$` or `^\d+-\d+$`;
otherwise it returns the single citation string built from the surviving
parts, with the singular prefix `Citation` exactly when one part survived
and that part is not a range. -/
theorem parse_citation_spec (text : List Char) :
    (parse_citation text = [] ↔ matchingParts text = []) ∧
    (∀ s ∈ parse_citation text,
      s = (if (matchingParts text).length = 1 ∧
              (∀ p ∈ matchingParts text, isRangePat p = false)
            then citationSingularPfx else citationPluralPfx) ++
          joinParts (matchingParts text)) := by
  have hVeq : (((splitOnChar ',' (pyStrip text)).map pyStrip).filter
      (fun p => !p.isEmpty)).filter (fun p => isAllDigits p || isRangePat p) =
      matchingParts text := filter_nonempty_comm _
  constructor
  · unfold parse_citation
    simp only [hVeq]
    by_cases hV : matchingParts text = []
    · simp [hV]
    · have hne : (matchingParts text).isEmpty = false := by
        rcases hx : matchingParts text with _ | _
        · exact absurd hx hV
        · rfl
      simp [hne, hV]
  · intro s hs
    unfold parse_citation at hs
    simp only [hVeq] at hs
    by_cases hV : matchingParts text = []
    · rw [hV] at hs
      simp at hs
    · have hne : (matchingParts text).isEmpty = false := by
        rcases hx : matchingParts text with _ | _
        · exact absurd hx hV
        · rfl
      simp only [hne, Bool.false_eq_true, if_false, List.mem_singleton] at hs
      subst hs
      have hval : ∀ p ∈ matchingParts text, (isAllDigits p || isRangePat p) = true :=
        fun p hp => (List.mem_filter.mp hp).2
      rw [plural_prefix_eq (matchingParts text) hval hV]

/-- Witness for C8 at the raw superscript text `"19-22,42"`, whose two
stripped parts `19-22` and `42` both survive the filter. -/
theorem parse_citation_spec_witness :
    (("Citations 19-22, 42").data ∈ parse_citation (("19-22,42").data)) ∧
    ("Citations 19-22, 42").data =
      (if (matchingParts (("19-22,42").data)).length = 1 ∧
          (∀ p ∈ matchingParts (("19-22,42").data), isRangePat p = false)
        then citationSingularPfx else citationPluralPfx) ++
        joinParts (matchingParts (("19-22,42").data)) :=
  ⟨by decide,
    (parse_citation_spec (("19-22,42").data)).2 (("Citations 19-22, 42").data) (by decide)⟩

/-! Section: C9: citation locations never overlap within a paragraph -/

theorem scanRunsF_spec (an : List (List Char)) (pIdx : Nat) :
    ∀ (fuel : Nat) (prev : List (List Char × Bool)) (i : Nat) (seen : Bool)
      (l : List (List Char × Bool)),
      (∀ loc ∈ scanRunsF an pIdx fuel prev i seen l,
        i ≤ loc.run_index ∧ loc.run_index ≤ loc.end_run_index ∧
          loc.paragraph_index = pIdx) ∧
      (scanRunsF an pIdx fuel prev i seen l).Pairwise
        (fun a b => a.end_run_index < b.run_index) := by
  intro fuel
  induction fuel with
  | zero =>
    intro prev i seen l
    constructor
    · intro loc hl
      simp [scanRunsF] at hl
    · simp [scanRunsF]
  | succ f ih =>
    intro prev i seen l
    cases l with
    | nil =>
      constructor
      · intro loc hl
        simp [scanRunsF] at hl
      · simp [scanRunsF]
    | cons r rest =>
      obtain ⟨t, b⟩ := r
      cases b with
      | false =>
        have hrec := ih (prev ++ [(t, false)]) (i + 1) (seen || !(pyStrip t).isEmpty) rest
        constructor
        · intro loc hl
          simp only [scanRunsF] at hl
          obtain ⟨ha, hb2, hc2⟩ := hrec.1 loc hl
          exact ⟨by omega, hb2, hc2⟩
        · simp only [scanRunsF]
          exact hrec.2
      | true =>
        constructor
        · intro loc hl
          simp only [scanRunsF] at hl
          split_ifs at hl with c1 c2 c3
          · obtain ⟨ha, hb2, hc2⟩ := (ih _ _ _ _).1 loc hl
            exact ⟨by omega, hb2, hc2⟩
          · obtain ⟨ha, hb2, hc2⟩ := (ih _ _ _ _).1 loc hl
            exact ⟨by omega, hb2, hc2⟩
          · rcases List.mem_cons.mp hl with rfl | hl2
            · exact ⟨le_refl i, Nat.le_add_right _ _, rfl⟩
            · obtain ⟨ha, hb2, hc2⟩ := (ih _ _ _ _).1 loc hl2
              exact ⟨by omega, hb2, hc2⟩
          · obtain ⟨ha, hb2, hc2⟩ := (ih _ _ _ _).1 loc hl
            exact ⟨by omega, hb2, hc2⟩
        · simp only [scanRunsF]
          split_ifs with c1 c2 c3
          · exact (ih _ _ _ _).2
          · exact (ih _ _ _ _).2
          · refine List.pairwise_cons.mpr ⟨?_, (ih _ _ _ _).2⟩
            intro loc hloc
            obtain ⟨ha, hb2, hc2⟩ := (ih _ _ _ _).1 loc hloc
            show i + (rest.takeWhile (fun r => r.2)).length < loc.run_index
            omega
          · exact (ih _ _ _ _).2

/-- C9: any two distinct citation locations of the same paragraph have
disjoint run-index ranges: the last run of one group lies strictly before
the first run of the other, so the ranges never overlap and the scan never
revisits an earlier run of the paragraph. -/
theorem extract_citation_locations_disjoint (paras : List (List (List Char × Bool)))
    (an : List (List Char)) (l1 l2 : CitationLoc)
    (h1 : l1 ∈ extract_citation_locations paras an)
    (h2 : l2 ∈ extract_citation_locations paras an)
    (hne : l1 ≠ l2)
    (hp : l1.paragraph_index = l2.paragraph_index) :
    l1.end_run_index < l2.run_index ∨ l2.end_run_index < l1.run_index := by
  unfold extract_citation_locations at h1 h2
  rcases List.mem_flatMap.mp h1 with ⟨q1, hq1, hl1⟩
  rcases List.mem_flatMap.mp h2 with ⟨q2, hq2, hl2⟩
  by_cases hr1 : isRefEntryRaw (paragraphFullText q1.2)
  · rw [if_pos hr1] at hl1
    simp at hl1
  by_cases hr2 : isRefEntryRaw (paragraphFullText q2.2)
  · rw [if_pos hr2] at hl2
    simp at hl2
  rw [if_neg hr1] at hl1
  rw [if_neg hr2] at hl2
  have hp1 : l1.paragraph_index = q1.1 :=
    ((scanRunsF_spec an q1.1 q1.2.length [] 0 false q1.2).1 l1 hl1).2.2
  have hp2 : l2.paragraph_index = q2.1 :=
    ((scanRunsF_spec an q2.1 q2.2.length [] 0 false q2.2).1 l2 hl2).2.2
  have hq : q1.1 = q2.1 := by rw [← hp1, ← hp2, hp]
  have e1 := List.mem_enum_iff_getElem?.mp hq1
  have e2 := List.mem_enum_iff_getElem?.mp hq2
  rw [hq] at e1
  have hqq : q1.2 = q2.2 := Option.some.inj (e1.symm.trans e2)
  rw [hq, hqq] at hl1
  have hpw := (scanRunsF_spec an q2.1 q2.2.length [] 0 false q2.2).2
  have hpw2 : (scanRunsF an q2.1 q2.2.length [] 0 false q2.2).Pairwise
      (fun a b => a.end_run_index < b.run_index ∨ b.end_run_index < a.run_index) :=
    hpw.imp (fun h => Or.inl h)
  exact hpw2.forall (fun a b h => h.elim Or.inr Or.inl) hl1 hl2 hne

/-- Witness for C9 on a one-paragraph document with two recorded citation
locations (the superscript runs 1 and 3). -/
theorem extract_citation_locations_disjoint_witness :
    (CitationLoc.mk 0 1 1 (("1").data) (("This is regular text.").data) ∈
      extract_citation_locations
        [[(("This is regular text.").data, false), (("1").data, true),
          ((" and more words").data, false), (("2").data, true)]] [] ∧
     CitationLoc.mk 0 3 3 (("2").data) (("regular text.1 and more words").data) ∈
      extract_citation_locations
        [[(("This is regular text.").data, false), (("1").data, true),
          ((" and more words").data, false), (("2").data, true)]] []) ∧
    ((CitationLoc.mk 0 1 1 (("1").data) (("This is regular text.").data)).end_run_index <
      (CitationLoc.mk 0 3 3 (("2").data)
        (("regular text.1 and more words").data)).run_index ∨
     (CitationLoc.mk 0 3 3 (("2").data)
        (("regular text.1 and more words").data)).end_run_index <
      (CitationLoc.mk 0 1 1 (("1").data) (("This is regular text.").data)).run_index) :=
  ⟨⟨by decide, by decide⟩,
    extract_citation_locations_disjoint
      [[(("This is regular text.").data, false), (("1").data, true),
        ((" and more words").data, false), (("2").data, true)]] []
      (CitationLoc.mk 0 1 1 (("1").data) (("This is regular text.").data))
      (CitationLoc.mk 0 3 3 (("2").data) (("regular text.1 and more words").data))
      (by decide) (by decide) (by decide) (by decide)⟩

end Citations
